import Mathlib

/-!
Verification development for the LocalSeal anonymization pipeline.

This file gives a shallow embedding, in Lean 4, of the parts of the
LocalSeal source that the specification's claims talk about:

* `js/services/NLPProcessor.js` — the `_normalize` helper, the
  `mapEntitiesToWords` word mapper and the `_detectSensitiveValues`
  regex exec loop;
* `SecurityManager.js` — the `_validateLicenseKey` credential validator
  and `activateLicense`;
* `js/services/ImageService.js` — `blurRegions` and the `_pixelate`
  block filter, over an explicit pixel-buffer model of the canvas
  (`getImageData` / `putImageData` follow the HTML canvas semantics:
  out-of-bounds reads yield transparent black, out-of-bounds writes are
  clipped, a zero extraction size is an `IndexSizeError`, and a negative
  extraction size is normalized by the source-rectangle corner rule);
* `LocalSealEngine.js` — the progress events emitted by `processFile`
  along its success path, with the external collaborators (OCR progress
  reports, NLP entity counts, watermark stamping) as parameters.

Strings are modelled as `List Char`; JS 32-bit signed integer
wraparound is modelled explicitly on `Int`; mutation of
`localStorage` / instance state is modelled by explicit state passing.
-/

namespace LocalSeal

/-! ## Data model -/

/-- Axis-aligned bounding box `{x0, y0, x1, y1}` in pixel coordinates,
as produced by the OCR collaborator. -/
structure BBox where
  x0 : Int
  y0 : Int
  x1 : Int
  y1 : Int
deriving DecidableEq, Repr

/-- A `RecognizedWord` as consumed by `mapEntitiesToWords`
(`{ text, confidence, bbox }`). -/
structure RecognizedWord where
  text : List Char
  confidence : ℚ
  bbox : BBox
deriving DecidableEq, Repr

/-- A `TextSpan` (named entity or sensitive regex match):
`{ type, text, offset, length }`. -/
structure TextSpan where
  type : String
  text : List Char
  offset : Int
  length : Nat
deriving DecidableEq, Repr

/-- The object pushed onto `boxesToBlur` by `mapEntitiesToWords`:
`{ bbox: word.bbox, type: entity.type, text: word.text,
confidence: word.confidence }`. -/
structure RedactionBox where
  bbox : BBox
  type : String
  text : List Char
  confidence : ℚ
deriving DecidableEq, Repr

/-- Result of `NLPProcessor.analyze`: named-entity spans from the NER
collaborator plus regex-detected sensitive spans. -/
structure NLPResult where
  entities : List TextSpan
  sensitive : List TextSpan
deriving DecidableEq, Repr

/-- Computes `nlpResult.total = entities.length + sensitive.length`. -/
def NLPResult.total (r : NLPResult) : Nat :=
  r.entities.length + r.sensitive.length

/-! ## `NLPProcessor._normalize`

`str.toLowerCase().normalize('NFD').replace(/[̀-ͯ]/g, '')
.replace(/[^\w\s]/g, '')` -/

/-- Models `String.prototype.toLowerCase`, on the Basic Latin and Latin-1
ranges (the ranges the French-language pipeline produces). -/
def jsToLower (c : Char) : Char :=
  if 'A' ≤ c ∧ c ≤ 'Z' then Char.ofNat (c.toNat + 32)
  else if 0xC0 ≤ c.toNat ∧ c.toNat ≤ 0xDE ∧ c.toNat ≠ 0xD7 then Char.ofNat (c.toNat + 32)
  else c

/-- Canonical decomposition (`normalize('NFD')`) of one character, for
the Latin-1 letters: an accented letter decomposes into its base letter
followed by a combining mark in U+0300–U+036F; everything else is left
alone. -/
def nfdChar (c : Char) : List Char :=
  match c with
  | 'à' => ['a', '̀'] | 'á' => ['a', '́'] | 'â' => ['a', '̂']
  | 'ã' => ['a', '̃'] | 'ä' => ['a', '̈'] | 'å' => ['a', '̊']
  | 'ç' => ['c', '̧']
  | 'è' => ['e', '̀'] | 'é' => ['e', '́'] | 'ê' => ['e', '̂']
  | 'ë' => ['e', '̈']
  | 'ì' => ['i', '̀'] | 'í' => ['i', '́'] | 'î' => ['i', '̂']
  | 'ï' => ['i', '̈']
  | 'ñ' => ['n', '̃']
  | 'ò' => ['o', '̀'] | 'ó' => ['o', '́'] | 'ô' => ['o', '̂']
  | 'õ' => ['o', '̃'] | 'ö' => ['o', '̈']
  | 'ù' => ['u', '̀'] | 'ú' => ['u', '́'] | 'û' => ['u', '̂']
  | 'ü' => ['u', '̈']
  | 'ý' => ['y', '́'] | 'ÿ' => ['y', '̈']
  | c => [c]

/-- The combining diacritical marks range `[̀-ͯ]`. -/
def isCombiningMark (c : Char) : Bool :=
  0x300 ≤ c.toNat ∧ c.toNat ≤ 0x36F

/-- Regex `\w`: `[A-Za-z0-9_]`. -/
def isWordChar (c : Char) : Bool :=
  ('a' ≤ c ∧ c ≤ 'z') ∨ ('A' ≤ c ∧ c ≤ 'Z') ∨ ('0' ≤ c ∧ c ≤ '9') ∨ c = '_'

/-- Regex `\s` on the ASCII whitespace characters. -/
def isSpaceChar (c : Char) : Bool :=
  c = ' ' ∨ c = '\t' ∨ c = '\n' ∨ c = '\x0d' ∨ c = '\x0b' ∨ c = '\x0c'

/-- Models `NLPProcessor._normalize`: lower-case, NFD-decompose, strip the
combining marks, strip every character that is neither `\w` nor `\s`. -/
def normalize (s : List Char) : List Char :=
  ((((s.map jsToLower).flatMap nfdChar).filter (fun c => ¬ isCombiningMark c)).filter
    (fun c => isWordChar c ∨ isSpaceChar c))

/-! ## `NLPProcessor.mapEntitiesToWords` -/

/-- Tests whether `small` is a prefix of `big`. -/
def listStartsWith : List Char → List Char → Bool
  | [], _ => true
  | _ :: _, [] => false
  | a :: as, b :: bs => a = b && listStartsWith as bs

/-- Models `big.includes(small)`: `small` occurs contiguously inside `big`
(`String.prototype.includes`). -/
def listHasSub (small : List Char) : List Char → Bool
  | [] => listStartsWith small []
  | c :: rest => listStartsWith small (c :: rest) || listHasSub small rest

/-- Mathematical statement of the substring relation. -/
def IsSubstringOf (small big : List Char) : Prop :=
  ∃ pre post, big = pre ++ small ++ post

/-- The record pushed for OCR word `w` matching target span `s`. -/
def mkRedactionBox (s : TextSpan) (w : RecognizedWord) : RedactionBox :=
  { bbox := w.bbox, type := s.type, text := w.text, confidence := w.confidence }

/-- The boxes `mapEntitiesToWords` pushes while processing one target
span: for each OCR word, push its box when
`normalizedEntity.includes(normalizedWord)`. -/
def boxesForTarget (entity : TextSpan) (ocrWords : List RecognizedWord) : List RedactionBox :=
  let normalizedEntity := normalize entity.text
  ocrWords.flatMap (fun word =>
    let normalizedWord := normalize word.text
    if listHasSub normalizedWord normalizedEntity then [mkRedactionBox entity word] else [])

/-- Models `NLPProcessor.mapEntitiesToWords`: concatenate entity and sensitive
spans (`allTargets`), then accumulate the matching word boxes target by
target. -/
def mapEntitiesToWords (nlpResult : NLPResult) (ocrWords : List RecognizedWord) :
    List RedactionBox :=
  (nlpResult.entities ++ nlpResult.sensitive).flatMap (fun entity => boxesForTarget entity ocrWords)

/-! ## `SecurityManager._validateLicenseKey`

Format `RAND-TIME-RAND-HASH`; shape regex
`^[A-Z0-9]{4}-[A-Z0-9]{4}-[A-Z0-9]{4}-[A-Z0-9]{4}$`; rolling checksum
with 32-bit signed wraparound; 5-minute time window on the hex
timestamp in group 2; anti-replay set persisted in
`localStorage('localseal_used_keys')`. -/

/-- JS `ToInt32`: wrap an integer to the signed 32-bit range
`[-2^31, 2^31)`, as `hash & hash` (and `<< 5`) do in the source. -/
def toInt32 (n : Int) : Int :=
  (n + 2147483648) % 4294967296 - 2147483648

/-- One iteration of the source's checksum loop:
`hash = ((hash << 5) - hash) + char; hash = hash & hash`. -/
def hashStepSrc (h : Int) (c : Nat) : Int :=
  toInt32 (toInt32 (h * 32) - h + c)

/-- One iteration as the spec words it: `hash = hash*31 + charCode`
with 32-bit signed wraparound. -/
def hashStepSpec (h : Int) (c : Nat) : Int :=
  toInt32 (31 * h + c)

/-- Character class `[A-Z0-9]`. -/
def isUpperAlnum (c : Char) : Bool :=
  ('A' ≤ c ∧ c ≤ 'Z') ∨ ('0' ≤ c ∧ c ≤ '9')

/-- Models `key.split('-')`. -/
def splitOnDash : List Char → List (List Char)
  | [] => [[]]
  | c :: rest =>
    let r := splitOnDash rest
    if c = '-' then [] :: r
    else
      match r with
      | [] => [[c]]
      | g :: gs => (c :: g) :: gs

/-- The shape regex: four 4-character upper-alphanumeric groups
separated by single hyphens. -/
def shapeOk (key : List Char) : Bool :=
  let gs := splitOnDash key
  gs.length = 4 && gs.all (fun g => g.length = 4 && g.all isUpperAlnum)

/-- Models `Number.toString(16).toUpperCase()`: upper-case hexadecimal digits,
most significant first (`"0"` for zero). -/
def toHexUpper (n : Nat) : List Char :=
  (Nat.toDigits 16 n).map Char.toUpper

/-- Models `String.prototype.padStart(n, c)`. -/
def padStart (n : Nat) (c : Char) (l : List Char) : List Char :=
  List.replicate (n - l.length) c ++ l

/-- Models `String.prototype.slice(-n)`: the last `n` characters. -/
def lastChars (n : Nat) (l : List Char) : List Char :=
  l.drop (l.length - n)

/-- The fixed secret salt. -/
def SALT : List Char := "LocalSeal_V2_Secret_Salt_2026".toList

/-- Models `calculatedCheck`: rolling hash of `payload + SALT` starting from
0, then `Math.abs(hash).toString(16).toUpperCase()
.padStart(4, '0').slice(-4)`. -/
def calcCheck (payload : List Char) : List Char :=
  let input := payload ++ SALT
  let hash := input.foldl (fun h c => hashStepSrc h c.toNat) 0
  lastChars 4 (padStart 4 '0' (toHexUpper hash.natAbs))

/-- The checksum as the spec describes it (`hash = hash*31 + charCode`
over `group1 + "-" + group2 + "-" + group3 + salt`, then abs, hex,
upper case, zero-padded to 4, last 4 kept). -/
def checksumSpec (g1 g2 g3 : List Char) : List Char :=
  let input := (g1 ++ '-' :: (g2 ++ '-' :: g3)) ++ SALT
  let hash := input.foldl (fun h c => hashStepSpec h c.toNat) 0
  lastChars 4 (padStart 4 '0' (toHexUpper hash.natAbs))

/-- Numeric value of a hexadecimal digit, or `none`. -/
def hexDigitVal (c : Char) : Option Nat :=
  let n := c.toNat
  if 48 ≤ n ∧ n ≤ 57 then some (n - 48)
  else if 65 ≤ n ∧ n ≤ 70 then some (n - 55)
  else if 97 ≤ n ∧ n ≤ 102 then some (n - 87)
  else none

/-- JS `parseInt(s, 16)`: strip an optional `0x`/`0X` prefix, read the
longest prefix of hexadecimal digits, and yield `none` (`NaN`) when
there is no digit at all. (Leading whitespace and signs cannot occur in
an `[A-Z0-9]` group.) -/
def parseIntHex (s : List Char) : Option Nat :=
  let s' := match s with
    | '0' :: 'x' :: rest => rest
    | '0' :: 'X' :: rest => rest
    | other => other
  let digits := s'.takeWhile (fun c => (hexDigitVal c).isSome)
  if digits.isEmpty then none
  else some (digits.foldl (fun acc c => acc * 16 + (hexDigitVal c).getD 0) 0)

/-- The time-window test. `keyMinutes = parseInt(timeCodeHex, 16)` never
throws, so the `catch` branch of the source is dead code; when the
group has no leading hexadecimal digit, `keyMinutes` is `NaN`, both
comparisons `diff < 0` and `diff > 5` are false, and the guard does not
fire, so the check passes. -/
def timeOk (timeCodeHex : List Char) (currentMinutes : Int) : Bool :=
  match parseIntHex timeCodeHex with
  | none => true
  | some keyMinutes => ¬(currentMinutes - keyMinutes < 0 ∨ currentMinutes - keyMinutes > 5)

/-- Models `SecurityManager._validateLicenseKey`, with the current time (in
minutes, `Math.floor(Date.now() / 60000)`) and the persisted
`localseal_used_keys` replay set passed and returned explicitly.
Checks run in order — shape, checksum, time window, replay — and any
failure returns before the replay set is touched; on success the key is
appended to the set. -/
def validateLicenseKey (key : List Char) (currentMinutes : Int)
    (usedKeys : List (List Char)) : Bool × List (List Char) :=
  if ¬ shapeOk key then (false, usedKeys)
  else
    let parts := splitOnDash key
    let payload := List.intercalate ['-'] (parts.take 3)
    let check := parts.getD 3 []
    let timeCodeHex := parts.getD 1 []
    if check ≠ calcCheck payload then (false, usedKeys)
    else if ¬ timeOk timeCodeHex currentMinutes then (false, usedKeys)
    else if key ∈ usedKeys then (false, usedKeys)
    else (true, usedKeys ++ [key])

/-- Models `this.licenseStatus`; `none` models the `Infinity` sentinels. -/
structure LicenseStatus where
  isPro : Bool
  expirationDate : Option Int
  maxFilesPerDay : Option Nat
  remainingFiles : Option Nat
  maxFileSize : Option Nat
  licenseKey : Option (List Char)
deriving DecidableEq, Repr

/-- State owned by `SecurityManager`: the in-memory license status plus
the two persisted `localStorage` entries the validator touches. -/
structure SecurityState where
  licenseStatus : LicenseStatus
  usedKeys : List (List Char)
  storedLicense : Option (List Char × Int)
deriving DecidableEq, Repr

/-- The freshly constructed `SecurityManager` state. -/
def initialSecurityState : SecurityState :=
  { licenseStatus :=
      { isPro := false, expirationDate := none, maxFilesPerDay := some 5,
        remainingFiles := some 5, maxFileSize := some (2 * 1024 * 1024), licenseKey := none },
    usedKeys := [],
    storedLicense := none }

/-- Models `SecurityManager.activateLicense` (`now` is `Date.now()` in
milliseconds): validate the key; on success persist the license and
switch the status to Pro with unlimited quota; on failure resolve
`false`. -/
def activateLicense (licenseKey : List Char) (now : Int) (st : SecurityState) :
    Bool × SecurityState :=
  let res := validateLicenseKey licenseKey (Int.fdiv now 60000) st.usedKeys
  if res.1 then
    let expirationDate := now + 365 * 24 * 60 * 60 * 1000
    (true,
      { licenseStatus :=
          { isPro := true, expirationDate := some expirationDate, maxFilesPerDay := none,
            remainingFiles := none, maxFileSize := none, licenseKey := some licenseKey },
        usedKeys := res.2,
        storedLicense := some (licenseKey, expirationDate) })
  else (false, { st with usedKeys := res.2 })

/-! ## `ImageService.blurRegions` / `ImageService._pixelate`

The canvas is modelled as a pixel surface `pix : x → y → channel → byte`
(channels `0..3` = RGBA). `getImageData` / `putImageData` follow the
HTML canvas specification: reads outside the canvas yield transparent
black (byte 0), writes outside the canvas are clipped, an extraction
rectangle of zero width or height is an `IndexSizeError`, and a
negative extraction size is not an error — the source rectangle is the
one spanned by the corners `(sx, sy)` and `(sx+sw, sy+sh)`, so its left
edge is `min sx (sx+sw)` and its width is `|sw|` (likewise vertically).
`ImageData.data` is the flat RGBA array, index `(y*width + x)*4 + ch`.
Because `_pixelate` advances its loop variables by `pixelSize`, a block
size of `0` makes `for (let y = 0; y < height; y += 0)` loop forever
whenever the extracted region is non-empty (which it always is past the
zero-size check), so a run of `blurRegions` has three possible
outcomes: a result canvas, a thrown `IndexSizeError`, or divergence. -/

/-- Outcome of a `blurRegions` iteration other than a result canvas:
a thrown exception (propagated out of the `forEach`) or
non-termination of the `_pixelate` loops. -/
inductive BlurFailure where
  | thrown : String → BlurFailure
  | diverge : BlurFailure
deriving DecidableEq, Repr

/-- The mutable pixel surface behind the 2D context. -/
structure CanvasImage where
  width : Nat
  height : Nat
  pix : Nat → Nat → Fin 4 → Nat

/-- An `ImageData` object: `width`, `height` and the flat RGBA byte
array, modelled as a function from flat index to byte (0 beyond the
`width*height*4` range). -/
structure ImageDataM where
  width : Nat
  height : Nat
  data : Nat → Nat

/-- Channel part of a flat RGBA index. -/
def chOf (i : Nat) : Nat := i % 4

/-- Pixel number of a flat RGBA index. -/
def pxOf (i : Nat) : Nat := i / 4

/-- Column of a flat RGBA index in a buffer of width `w`. -/
def xOf (w i : Nat) : Nat := pxOf i % w

/-- Row of a flat RGBA index in a buffer of width `w`. -/
def yOf (w i : Nat) : Nat := pxOf i / w

/-- Models `ctx.getImageData(sx, sy, w, h)` (HTML canvas semantics; the
zero-size check and the normalization of a negative requested size to a
top-left corner and positive dimensions happen at the call site in
`blurRegion`). -/
def getImageData (c : CanvasImage) (sx sy : Int) (w h : Nat) : ImageDataM :=
  { width := w, height := h,
    data := fun i =>
      if h' : yOf w i < h ∧ chOf i < 4 then
        let X : Int := sx + xOf w i
        let Y : Int := sy + yOf w i
        if 0 ≤ X ∧ X < c.width ∧ 0 ≤ Y ∧ Y < c.height then
          c.pix X.toNat Y.toNat ⟨chOf i, h'.2⟩
        else 0
      else 0 }

/-- Models `ctx.putImageData(d, dx, dy)` (HTML canvas semantics: writes
clipped to the canvas). -/
def putImageData (c : CanvasImage) (d : ImageDataM) (dx dy : Int) : CanvasImage :=
  { width := c.width, height := c.height,
    pix := fun x y ch =>
      if dx ≤ (x : Int) ∧ (x : Int) < dx + d.width ∧ dy ≤ (y : Int) ∧ (y : Int) < dy + d.height
      then d.data ((((y : Int) - dy).toNat * d.width + ((x : Int) - dx).toNat) * 4 + ch.val)
      else c.pix x y ch }

/-- Write byte `v` at flat index `i` (`data[i] = v`). -/
def setByte (d : Nat → Nat) (i v : Nat) : Nat → Nat :=
  fun j => if j = i then v else d j

/-- The body of the source's innermost loop:
`data[i] = r; data[i+1] = g; data[i+2] = b;` — alpha untouched. -/
def writeRGB (d : Nat → Nat) (i r g b : Nat) : Nat → Nat :=
  setByte (setByte (setByte d i r) (i + 1) g) (i + 2) b

/-- Models `for (let dx = 0; dx < pixelSize && x + dx < width; dx++)` for one
block row `yy = y + dy`: the loop runs for `dx < min pixelSize (w - x)`. -/
def blockRowWrite (d : Nat → Nat) (w x yy ps r g b : Nat) : Nat → Nat :=
  (List.range (min ps (w - x))).foldl
    (fun acc dx => writeRGB acc ((yy * w + (x + dx)) * 4) r g b) d

/-- Models `for (let dy = 0; dy < pixelSize && y + dy < height; dy++)`:
write the block colour to every row of the block. -/
def blockWrite (d : Nat → Nat) (w h x y ps r g b : Nat) : Nat → Nat :=
  (List.range (min ps (h - y))).foldl
    (fun acc dy => blockRowWrite acc w x (y + dy) ps r g b) d

/-- One iteration of the block loops: read the block colour from the
block's top-left pixel (`idx = (y*width + x)*4`) and flood the block
with it. -/
def pixelateBlock (d : Nat → Nat) (w h ps x y : Nat) : Nat → Nat :=
  let idx := (y * w + x) * 4
  blockWrite d w h x y ps (d idx) (d (idx + 1)) (d (idx + 2))

/-- The values visited by `for (v = 0; v < n; v += ps)` when `0 < ps`:
`0, ps, 2*ps, …` below `n`. (With `ps = 0` and `0 < n` the source loop
never terminates; `blurRegion` below accounts for that outcome before
`_pixelate` is entered, so the `pixelate` model is only ever applied
with `0 < ps`.) -/
def stepsBelow (ps n : Nat) : List Nat :=
  (List.range ((n + ps - 1) / ps)).map (· * ps)

/-- Models `ImageService._pixelate` on the flat data array: the y/x block
loops of the source. -/
def pixelate (d : Nat → Nat) (w h ps : Nat) : Nat → Nat :=
  (stepsBelow ps h).foldl
    (fun acc y => (stepsBelow ps w).foldl (fun acc2 x => pixelateBlock acc2 w h ps x y) acc) d

/-- Models `this._pixelate(imageData, blurIntensity)` applied to an
`ImageData` object. -/
def pixelateImage (img : ImageDataM) (ps : Nat) : ImageDataM :=
  { img with data := pixelate img.data img.width img.height ps }

/-- One iteration of `boxes.forEach` in `ImageService.blurRegions`:
extract the region, pixelate it, draw it back. `getImageData` raises
`IndexSizeError` exactly when the computed width or height is zero; a
negative width or height selects the rectangle spanned by the corners
`(x0, y0)` and `(x1, y1)` (left edge `min x0 x1`, width `|x1 - x0|`,
likewise vertically), with no error. Past that check the extracted
region has at least one row, so `_pixelate` with `pixelSize = 0` never
terminates; otherwise the pixelated region is drawn back at
`(x0, y0)`. -/
def blurRegion (c : CanvasImage) (bbox : BBox) (blurIntensity : Nat) :
    Except BlurFailure CanvasImage :=
  if bbox.x1 - bbox.x0 = 0 ∨ bbox.y1 - bbox.y0 = 0 then
    Except.error (BlurFailure.thrown "IndexSizeError")
  else if blurIntensity = 0 then Except.error BlurFailure.diverge
  else
    Except.ok (putImageData c
      (pixelateImage
        (getImageData c (min bbox.x0 bbox.x1) (min bbox.y0 bbox.y1)
          (bbox.x1 - bbox.x0).natAbs (bbox.y1 - bbox.y0).natAbs)
        blurIntensity)
      bbox.x0 bbox.y0)

/-- Models `ImageService.blurRegions(boxes, blurIntensity)`: process the boxes
in order; a raised error (or a diverging iteration) cuts the `forEach`
short and is the outcome of the whole call. -/
def blurRegions (c : CanvasImage) (boxes : List RedactionBox) (blurIntensity : Nat) :
    Except BlurFailure CanvasImage :=
  boxes.foldlM (fun acc box => blurRegion acc box.bbox blurIntensity) c

/-! ## `NLPProcessor._detectSensitiveValues` — the exec loop

The patterns are global (`/g`) regular expressions stored on the
instance; each carries a mutable `lastIndex`. `regex.exec(text)`
searches from `lastIndex`; on a match it returns the match and advances
`lastIndex` to its end; on failure it returns `null` and resets
`lastIndex` to 0. The concrete regexes are abstracted as matchers
`find text pos = some (index, length)` of the next match at or after
`pos`; real regexp matches start at or after the search position, are
non-empty (none of the source's patterns can match the empty string)
and lie inside the text, which is the `WFRegex` condition below. -/

/-- A compiled global regex: `find text pos` is the next match
(start index, length) at or after `pos`, or `none`. -/
structure GRegex where
  find : List Char → Nat → Option (Nat × Nat)

/-- What `regex.exec` guarantees for the source's patterns: a returned
match starts at or after the search position, is non-empty, and ends
within the text. -/
def WFRegex (re : GRegex) (text : List Char) : Prop :=
  ∀ pos i len, re.find text pos = some (i, len) → pos ≤ i ∧ 0 < len ∧ i + len ≤ text.length

/-- Models `while ((match = regex.exec(text)) !== null) { results.push(match) }`,
starting from the regex's current `lastIndex`. Returns the pushed
matches and the regex's `lastIndex` after the loop (reset to 0 by the
failing `exec` that ends it). The loop in the source is unbounded; the
model uses explicit fuel, and `text.length + 1` fuel is shown to be
enough for any well-formed matcher. -/
def execLoop (re : GRegex) (text : List Char) : Nat → Nat → List (Nat × Nat) × Nat
  | 0, lastIndex => ([], lastIndex)
  | fuel + 1, lastIndex =>
    match re.find text lastIndex with
    | none => ([], 0)
    | some (i, len) =>
      let rest := execLoop re text fuel (i + len)
      ((i, len) :: rest.1, rest.2)

/-- Models `_detectSensitiveValues`: run every pattern's exec loop over the
text, each from its own stored `lastIndex`; return the per-pattern
match lists (flattened into spans by the caller) and the patterns'
`lastIndex` values after the call. -/
def detectRun (patterns : List GRegex) (text : List Char) (states : List Nat) :
    List (List (Nat × Nat)) × List Nat :=
  let runs := (patterns.zip states).map (fun pr => execLoop pr.1 text (text.length + 1) pr.2)
  (runs.map Prod.fst, runs.map Prod.snd)

/-! ## `LocalSealEngine.processFile` — progress events

Each progress event is `(step, progress)`. The external collaborators
appear as parameters: `ocrReports` are the fractions the OCR progress
callback delivers (rescaled into `[0.20, 0.60]`), `nlpTotal` is
`analyze(...).total`, and `requiresWatermark` comes from the license
state. The list below is the sequence emitted by a run of
`processFile` in which every external call succeeds. -/

/-- The progress events of a successful `processFile` run, in emission
order. -/
def processFileEvents (anonymize extractTextOnly requiresWatermark : Bool)
    (ocrReports : List ℚ) (nlpTotal : Nat) : List (String × ℚ) :=
  [("mime_detection", 1/10), ("image_load", 15/100), ("ocr_start", 2/10)]
    ++ ocrReports.map (fun p => ("ocr_processing", 2/10 + p * (4/10)))
    ++ [("ocr_complete", 6/10)]
    ++ if extractTextOnly then []
       else
         (if anonymize then
            [("nlp_analysis", 65/100), ("nlp_complete", 7/10)]
              ++ (if nlpTotal > 0 then [("blur_start", 75/100), ("blur_complete", 85/100)]
                  else [("blur_skip", 8/10)])
          else [])
           ++ (if requiresWatermark then [("watermark", 9/10)] else [])
           ++ [("export", 95/100), ("complete", 1)]

/-- The redaction stage of `processFile`: `blurRegions` runs on the
canvas only when `anonymize` is set and `nlpResult.total > 0`;
otherwise the canvas passes through untouched. -/
def redactionStage (anonymize : Bool) (nlpTotal : Nat) (boxesToBlur : List RedactionBox)
    (blurIntensity : Nat) (c : CanvasImage) : Except BlurFailure CanvasImage :=
  if anonymize ∧ nlpTotal > 0 then blurRegions c boxesToBlur blurIntensity
  else Except.ok c

/-- Tests whether `p` is a prefix of the step name `s` (used for the `blur_*` family
of steps). -/
def stepStartsWith (p s : String) : Bool :=
  listStartsWith p.toList s.toList

/-- Origin of the pixelation block containing coordinate `v`
(the largest multiple of `ps` at most `v`). -/
def blockBase (ps v : Nat) : Nat := v / ps * ps

/-- Models `_pixelate` as a fold over an explicit list of block origins
(the nested y/x loops of `pixelate` visit exactly the origins in
`stepsBelow ps h ×ˢ stepsBelow ps w`). -/
def processBlocks (d : Nat → Nat) (w h ps : Nat) (L : List (Nat × Nat)) : Nat → Nat :=
  L.foldl (fun acc xy => pixelateBlock acc w h ps xy.1 xy.2) d

/-- The canvas produced by one `blurRegion` application on a region of
positive size: extract, pixelate, draw back. -/
def blurOnce (c : CanvasImage) (bbox : BBox) (ps : Nat) : CanvasImage :=
  putImageData c
    (pixelateImage
      (getImageData c bbox.x0 bbox.y0 (bbox.x1 - bbox.x0).toNat (bbox.y1 - bbox.y0).toNat) ps)
    bbox.x0 bbox.y0

/-! ## Concrete fixtures used by witnesses and counterexamples -/

/-- Entity span `"Marie Dupont"` (a person found by the NER
collaborator). -/
def mdSpan : TextSpan :=
  { type := "person", text := "Marie Dupont".toList, offset := 0, length := 12 }

/-- OCR word `"Marie"`. -/
def wMarie : RecognizedWord :=
  { text := "Marie".toList, confidence := 96, bbox := ⟨10, 20, 60, 40⟩ }

/-- OCR word `"Dupont"`. -/
def wDupont : RecognizedWord :=
  { text := "Dupont".toList, confidence := 94, bbox := ⟨65, 20, 130, 40⟩ }

/-- OCR word `"le"`. -/
def wLe : RecognizedWord :=
  { text := "le".toList, confidence := 99, bbox := ⟨140, 20, 160, 40⟩ }

/-- OCR word consisting only of punctuation. -/
def wBang : RecognizedWord :=
  { text := "!!!".toList, confidence := 80, bbox := ⟨170, 20, 185, 40⟩ }

/-- NLP result holding only the `"Marie Dupont"` entity. -/
def mdNlp : NLPResult := { entities := [mdSpan], sensitive := [] }

/-- The word list `["Marie", "Dupont", "le"]`. -/
def mdWords : List RecognizedWord := [wMarie, wDupont, wLe]

/-- A well-formed, checksum-correct credential whose group 2 encodes
minute 0 (`calcCheck "ABCD-0000-1234" = "7ABC"`). -/
def goodKey : List Char := "ABCD-0000-1234-7ABC".toList

/-- A well-formed, checksum-correct credential whose group 2 `"GZZZ"`
has no base-16 interpretation (`parseInt` yields `NaN`). -/
def nanKey : List Char := "AAAA-GZZZ-AAAA-3505".toList

/-- A 2×2 all-white canvas. -/
def whiteCanvas : CanvasImage := ⟨2, 2, fun _ _ _ => 255⟩

/-- A redaction box whose bounding box `(0,0)-(5,5)` lies outside the
2×2 canvas. -/
def oobRedaction : RedactionBox :=
  { bbox := ⟨0, 0, 5, 5⟩, type := "person", text := "x".toList, confidence := 90 }

/-- A 4×4 canvas with distinct pixel bytes. -/
def gradCanvas : CanvasImage := ⟨4, 4, fun x y ch => x + 4 * y + 16 * ch.val⟩

/-- A redaction box lying inside the 4×4 canvas. -/
def inRedaction : RedactionBox :=
  { bbox := ⟨1, 0, 4, 3⟩, type := "email", text := "a@b.fr".toList, confidence := 88 }

/-- Index of the first `'a'` in a character list. -/
def firstAIdx : List Char → Option Nat
  | [] => none
  | c :: rest => if c = 'a' then some 0 else (firstAIdx rest).map (· + 1)

/-- A concrete global matcher: the next single-character match `'a'` at
or after the search position. -/
def demoRe : GRegex :=
  { find := fun text pos => (firstAIdx (text.drop pos)).map (fun j => (pos + j, 1)) }

/-- Sample text for the detector determinism witness. -/
def demoText : List Char := "banana mania".toList

/-- A credential assembled from its four groups,
`group1 + "-" + group2 + "-" + group3 + "-" + group4`. -/
def groupsKey (g1 g2 g3 g4 : List Char) : List Char :=
  g1 ++ '-' :: (g2 ++ '-' :: (g3 ++ '-' :: g4))

/-- Value of `parts.slice(0, 3).join('-')` for a key assembled from groups. -/
def groupsPayload (g1 g2 g3 : List Char) : List Char :=
  g1 ++ '-' :: (g2 ++ '-' :: g3)

/-! ## Substring lemmas and the word-mapping claims -/

theorem listStartsWith_iff (s b : List Char) :
    listStartsWith s b = true ↔ ∃ rest, b = s ++ rest := by
  induction s generalizing b with
  | nil => simp [listStartsWith]
  | cons a as ih =>
    cases b with
    | nil => simp [listStartsWith]
    | cons c cs =>
      simp only [listStartsWith, Bool.and_eq_true, decide_eq_true_eq, ih]
      constructor
      · rintro ⟨rfl, rest, rfl⟩
        exact ⟨rest, rfl⟩
      · rintro ⟨rest, h⟩
        obtain ⟨rfl, rfl⟩ := by simpa using h
        exact ⟨rfl, rest, rfl⟩

theorem listHasSub_iff (s b : List Char) :
    listHasSub s b = true ↔ IsSubstringOf s b := by
  induction b with
  | nil =>
    simp only [listHasSub, listStartsWith_iff, IsSubstringOf]
    constructor
    · rintro ⟨rest, h⟩
      exact ⟨[], rest, h⟩
    · rintro ⟨pre, post, h⟩
      cases pre with
      | nil => exact ⟨post, by simpa using h⟩
      | cons p ps => simp at h
  | cons c cs ih =>
    simp only [listHasSub, Bool.or_eq_true, listStartsWith_iff, ih, IsSubstringOf]
    constructor
    · rintro (⟨rest, h⟩ | ⟨pre, post, h⟩)
      · exact ⟨[], rest, by simpa using h⟩
      · exact ⟨c :: pre, post, by simp [h]⟩
    · rintro ⟨pre, post, h⟩
      cases pre with
      | nil => exact Or.inl ⟨post, by simpa using h⟩
      | cons p ps =>
        right
        simp only [List.cons_append] at h
        injection h with h1 h2
        subst h1
        exact ⟨ps, post, h2⟩

theorem mkRedactionBox_text (s : TextSpan) (w w' : RecognizedWord)
    (h : mkRedactionBox s w' = mkRedactionBox s w) : w'.text = w.text :=
  congrArg RedactionBox.text h

theorem mem_boxesForTarget_iff (s : TextSpan) (ws : List RecognizedWord)
    (w : RecognizedWord) (hw : w ∈ ws) :
    mkRedactionBox s w ∈ boxesForTarget s ws ↔
      listHasSub (normalize w.text) (normalize s.text) = true := by
  simp only [boxesForTarget, List.mem_flatMap]
  constructor
  · rintro ⟨w', hw', hmem⟩
    by_cases hc : listHasSub (normalize w'.text) (normalize s.text) = true
    · rw [if_pos hc] at hmem
      obtain h := List.mem_singleton.mp hmem
      have htext : w'.text = w.text := by
        have := congrArg RedactionBox.text h
        simpa [mkRedactionBox] using this.symm
      rwa [htext] at hc
    · rw [if_neg hc] at hmem
      exact absurd hmem (List.not_mem_nil _)
  · intro hc
    exact ⟨w, hw, by rw [if_pos hc]; exact List.mem_singleton.mpr rfl⟩

/-- C1: for every target span `s` and recognized word `w`,
`mapEntitiesToWords` adds the redaction box for `w` while processing
target `s` if and only if `normalize(w.text)` is a substring of
`normalize(s.text)`; and a box added for a target in
`entities ++ sensitive` appears in the overall `mapEntitiesToWords`
output. -/
theorem mapEntities_containment (nlp : NLPResult) (ws : List RecognizedWord)
    (s : TextSpan) (w : RecognizedWord)
    (hs : s ∈ nlp.entities ++ nlp.sensitive) (hw : w ∈ ws) :
    (mkRedactionBox s w ∈ boxesForTarget s ws ↔
      IsSubstringOf (normalize w.text) (normalize s.text))
    ∧ (IsSubstringOf (normalize w.text) (normalize s.text) →
        mkRedactionBox s w ∈ mapEntitiesToWords nlp ws) := by
  constructor
  · rw [mem_boxesForTarget_iff s ws w hw]
    exact listHasSub_iff _ _
  · intro hsub
    have hmem : mkRedactionBox s w ∈ boxesForTarget s ws :=
      (mem_boxesForTarget_iff s ws w hw).mpr ((listHasSub_iff _ _).mpr hsub)
    exact List.mem_flatMap.mpr ⟨s, hs, hmem⟩

/-- Witness for C1 at the spec's example: entity text `"Marie Dupont"`
and words `["Marie", "Dupont", "le"]` — the first two words are mapped
and the third is not. -/
theorem mapEntities_containment_witness :
    mkRedactionBox mdSpan wMarie ∈ boxesForTarget mdSpan mdWords
    ∧ mkRedactionBox mdSpan wDupont ∈ mapEntitiesToWords mdNlp mdWords
    ∧ ¬ mkRedactionBox mdSpan wLe ∈ boxesForTarget mdSpan mdWords := by
  refine ⟨?_, ?_, ?_⟩
  · exact (mapEntities_containment mdNlp mdWords mdSpan wMarie (by decide) (by decide)).1.mpr
      ((listHasSub_iff _ _).mp (by decide))
  · exact (mapEntities_containment mdNlp mdWords mdSpan wDupont (by decide) (by decide)).2
      ((listHasSub_iff _ _).mp (by decide))
  · intro h
    have := (mapEntities_containment mdNlp mdWords mdSpan wLe (by decide) (by decide)).1.mp h
    exact absurd ((listHasSub_iff _ _).mpr this) (by decide)

/-- C9: a recognized word whose text normalizes to the empty string
(for example a punctuation-only token) is mapped to every target span
whose normalized text is non-empty, because the empty string is a
substring of every string; its box lands in the `mapEntitiesToWords`
output for each such target. -/
theorem mapEntities_empty_normalized_word (nlp : NLPResult) (ws : List RecognizedWord)
    (s : TextSpan) (w : RecognizedWord)
    (hs : s ∈ nlp.entities ++ nlp.sensitive) (hw : w ∈ ws)
    (_hne : normalize s.text ≠ []) (hempty : normalize w.text = []) :
    mkRedactionBox s w ∈ boxesForTarget s ws
    ∧ mkRedactionBox s w ∈ mapEntitiesToWords nlp ws := by
  have hsub : IsSubstringOf (normalize w.text) (normalize s.text) := by
    rw [hempty]
    exact ⟨[], normalize s.text, rfl⟩
  have hmem : mkRedactionBox s w ∈ boxesForTarget s ws :=
    (mem_boxesForTarget_iff s ws w hw).mpr ((listHasSub_iff _ _).mpr hsub)
  exact ⟨hmem, List.mem_flatMap.mpr ⟨s, hs, hmem⟩⟩

/-- Witness for C9: the punctuation-only token `"!!!"` is mapped to the
`"Marie Dupont"` target. -/
theorem mapEntities_empty_normalized_word_witness :
    mkRedactionBox mdSpan wBang ∈ boxesForTarget mdSpan (mdWords ++ [wBang])
    ∧ mkRedactionBox mdSpan wBang ∈ mapEntitiesToWords mdNlp (mdWords ++ [wBang]) :=
  mapEntities_empty_normalized_word mdNlp (mdWords ++ [wBang]) mdSpan wBang
    (by decide) (by decide) (by decide) (by decide)


/-! ## License validator lemmas and claims C2–C4 -/

theorem hashStep_eq (h : Int) (c : Nat) : hashStepSrc h c = hashStepSpec h c := by
  unfold hashStepSrc hashStepSpec toInt32
  omega

theorem calcCheck_eq_checksumSpec (g1 g2 g3 : List Char) :
    calcCheck (groupsPayload g1 g2 g3) = checksumSpec g1 g2 g3 := by
  unfold calcCheck checksumSpec groupsPayload
  have hfun : (fun (h : Int) (c : Char) => hashStepSrc h c.toNat)
      = fun (h : Int) (c : Char) => hashStepSpec h c.toNat :=
    funext fun h => funext fun c => hashStep_eq h c.toNat
  rw [hfun]

theorem splitOnDash_no_dash (g : List Char) (hg : ∀ c ∈ g, c ≠ '-') :
    splitOnDash g = [g] := by
  induction g with
  | nil => rfl
  | cons c cs ih =>
    have hc : c ≠ '-' := hg c (List.mem_cons_self c cs)
    have ihc := ih (fun d hd => hg d (List.mem_cons_of_mem c hd))
    simp only [splitOnDash]
    rw [ihc]
    simp [hc]

theorem splitOnDash_append (g rest : List Char) (hg : ∀ c ∈ g, c ≠ '-') :
    splitOnDash (g ++ '-' :: rest) = g :: splitOnDash rest := by
  induction g with
  | nil => simp [splitOnDash]
  | cons c cs ih =>
    have hc : c ≠ '-' := hg c (List.mem_cons_self c cs)
    have ihc := ih (fun d hd => hg d (List.mem_cons_of_mem c hd))
    simp only [List.cons_append, splitOnDash, List.append_eq]
    rw [ihc]
    simp [hc]

theorem upperAlnum_ne_dash {c : Char} (h : isUpperAlnum c = true) : c ≠ '-' := by
  intro hc
  subst hc
  simp [isUpperAlnum] at h

theorem splitOnDash_groupsKey (g1 g2 g3 g4 : List Char)
    (ha1 : ∀ c ∈ g1, isUpperAlnum c = true) (ha2 : ∀ c ∈ g2, isUpperAlnum c = true)
    (ha3 : ∀ c ∈ g3, isUpperAlnum c = true) (ha4 : ∀ c ∈ g4, isUpperAlnum c = true) :
    splitOnDash (groupsKey g1 g2 g3 g4) = [g1, g2, g3, g4] := by
  unfold groupsKey
  rw [splitOnDash_append g1 _ (fun c hc => upperAlnum_ne_dash (ha1 c hc)),
    splitOnDash_append g2 _ (fun c hc => upperAlnum_ne_dash (ha2 c hc)),
    splitOnDash_append g3 _ (fun c hc => upperAlnum_ne_dash (ha3 c hc)),
    splitOnDash_no_dash g4 (fun c hc => upperAlnum_ne_dash (ha4 c hc))]

theorem shapeOk_groupsKey (g1 g2 g3 g4 : List Char)
    (h1 : g1.length = 4) (h2 : g2.length = 4) (h3 : g3.length = 4) (h4 : g4.length = 4)
    (ha1 : ∀ c ∈ g1, isUpperAlnum c = true) (ha2 : ∀ c ∈ g2, isUpperAlnum c = true)
    (ha3 : ∀ c ∈ g3, isUpperAlnum c = true) (ha4 : ∀ c ∈ g4, isUpperAlnum c = true) :
    shapeOk (groupsKey g1 g2 g3 g4) = true := by
  unfold shapeOk
  rw [splitOnDash_groupsKey g1 g2 g3 g4 ha1 ha2 ha3 ha4]
  simp [h1, h2, h3, h4, List.all_eq_true]
  exact ⟨ha1, ha2, ha3, ha4⟩

theorem validateLicenseKey_groups (g1 g2 g3 g4 : List Char)
    (h1 : g1.length = 4) (h2 : g2.length = 4) (h3 : g3.length = 4) (h4 : g4.length = 4)
    (ha1 : ∀ c ∈ g1, isUpperAlnum c = true) (ha2 : ∀ c ∈ g2, isUpperAlnum c = true)
    (ha3 : ∀ c ∈ g3, isUpperAlnum c = true) (ha4 : ∀ c ∈ g4, isUpperAlnum c = true)
    (t : Int) (used : List (List Char)) :
    validateLicenseKey (groupsKey g1 g2 g3 g4) t used
      = if g4 ≠ calcCheck (groupsPayload g1 g2 g3) then (false, used)
        else if ¬ timeOk g2 t then (false, used)
        else if groupsKey g1 g2 g3 g4 ∈ used then (false, used)
        else (true, used ++ [groupsKey g1 g2 g3 g4]) := by
  have hshape := shapeOk_groupsKey g1 g2 g3 g4 h1 h2 h3 h4 ha1 ha2 ha3 ha4
  have hsplit := splitOnDash_groupsKey g1 g2 g3 g4 ha1 ha2 ha3 ha4
  have htake : List.take 3 [g1, g2, g3, g4] = [g1, g2, g3] := rfl
  have hget3 : List.getD [g1, g2, g3, g4] 3 ([] : List Char) = g4 := rfl
  have hget1 : List.getD [g1, g2, g3, g4] 1 ([] : List Char) = g2 := rfl
  have hpay : List.intercalate ['-'] [g1, g2, g3] = groupsPayload g1 g2 g3 := by
    simp [List.intercalate, groupsPayload]
  unfold validateLicenseKey
  rw [if_neg (not_not_intro hshape)]
  simp only [hsplit, htake, hget3, hget1, hpay]

/-- C2: for a credential of shape `GGGG-GGGG-GGGG-GGGG`, the validator's
checksum equals the spec's description — a rolling hash
`hash = hash*31 + charCode` with 32-bit signed wraparound over
`group1 + "-" + group2 + "-" + group3 + salt` starting from 0, then
`abs(hash)` rendered in upper-case hexadecimal, zero-padded to 4
characters, last 4 kept — and the checksum step passes exactly when
that 4-character string equals group 4: overall validation succeeds
only if they are equal, and on a mismatch the validator returns `false`
with the replay set untouched. -/
theorem license_checksum (g1 g2 g3 g4 : List Char)
    (h1 : g1.length = 4) (h2 : g2.length = 4) (h3 : g3.length = 4) (h4 : g4.length = 4)
    (ha1 : ∀ c ∈ g1, isUpperAlnum c = true) (ha2 : ∀ c ∈ g2, isUpperAlnum c = true)
    (ha3 : ∀ c ∈ g3, isUpperAlnum c = true) (ha4 : ∀ c ∈ g4, isUpperAlnum c = true)
    (t : Int) (used : List (List Char)) :
    calcCheck (groupsPayload g1 g2 g3) = checksumSpec g1 g2 g3
    ∧ ((validateLicenseKey (groupsKey g1 g2 g3 g4) t used).1 = true →
        g4 = checksumSpec g1 g2 g3)
    ∧ (g4 ≠ checksumSpec g1 g2 g3 →
        validateLicenseKey (groupsKey g1 g2 g3 g4) t used = (false, used)) := by
  have hred := validateLicenseKey_groups g1 g2 g3 g4 h1 h2 h3 h4 ha1 ha2 ha3 ha4 t used
  have hcs := calcCheck_eq_checksumSpec g1 g2 g3
  refine ⟨hcs, ?_, ?_⟩
  · intro hval
    by_contra hne
    rw [hred, if_pos (by rw [hcs]; exact hne)] at hval
    simp at hval
  · intro hne
    rw [hred, if_pos (by rw [hcs]; exact hne)]

set_option maxRecDepth 100000 in
/-- Witness for C2 at the concrete credential `ABCD-0000-1234-7ABC`:
group 4 equals the spec checksum of the first three groups, and indeed
this key passes the whole validation at minute 0. -/
theorem license_checksum_witness :
    (calcCheck (groupsPayload "ABCD".toList "0000".toList "1234".toList)
        = checksumSpec "ABCD".toList "0000".toList "1234".toList
      ∧ ((validateLicenseKey (groupsKey "ABCD".toList "0000".toList "1234".toList "7ABC".toList)
            0 []).1 = true →
          "7ABC".toList = checksumSpec "ABCD".toList "0000".toList "1234".toList)
      ∧ ("7ABC".toList ≠ checksumSpec "ABCD".toList "0000".toList "1234".toList →
          validateLicenseKey (groupsKey "ABCD".toList "0000".toList "1234".toList "7ABC".toList)
            0 [] = (false, [])))
    ∧ (validateLicenseKey (groupsKey "ABCD".toList "0000".toList "1234".toList "7ABC".toList)
        0 []).1 = true :=
  ⟨license_checksum "ABCD".toList "0000".toList "1234".toList "7ABC".toList
    (by decide) (by decide) (by decide) (by decide)
    (by decide) (by decide) (by decide) (by decide) 0 [],
   by decide⟩

set_option maxRecDepth 100000 in
/-- C3 (code bug): `parseInt(timeCodeHex, 16)` never throws, so the
`catch` that was meant to reject an unparseable timestamp is dead code.
For a well-formed, checksum-correct credential whose group 2 (`"GZZZ"`)
has no base-16 interpretation, `keyMinutes` is `NaN`, both `diff < 0`
and `diff > 5` are false, and the time-window check passes at every
current time — the whole validation succeeds — although the claim's
`0 ≤ currentMinutes − issuedMinutes ≤ 5` cannot hold for any
`issuedMinutes` value of this credential. -/
theorem license_time_window_nan_bug :
    parseIntHex "GZZZ".toList = none
    ∧ (∀ t : Int, timeOk "GZZZ".toList t = true)
    ∧ validateLicenseKey nanKey 999999 [] = (true, [nanKey])
    ∧ validateLicenseKey nanKey (-1000000) [] = (true, [nanKey]) := by
  refine ⟨rfl, fun t => rfl, by decide, by decide⟩

theorem validate_fail_keeps_used (key : List Char) (t : Int) (used : List (List Char))
    (h : (validateLicenseKey key t used).1 = false) :
    (validateLicenseKey key t used).2 = used := by
  simp only [validateLicenseKey] at h ⊢
  split_ifs at h ⊢ <;> simp_all

theorem validate_success_result (key : List Char) (t : Int) (used : List (List Char))
    (h : (validateLicenseKey key t used).1 = true) :
    validateLicenseKey key t used = (true, used ++ [key]) ∧ key ∉ used := by
  simp only [validateLicenseKey] at h ⊢
  split_ifs at h ⊢
  simp_all

theorem validate_append_only_on_success (key : List Char) (t : Int) (used : List (List Char))
    (h : (validateLicenseKey key t used).2 ≠ used) :
    validateLicenseKey key t used = (true, used ++ [key]) := by
  simp only [validateLicenseKey] at h ⊢
  split_ifs at h ⊢ <;> simp_all

theorem validate_replayed (key : List Char) (t : Int) (used : List (List Char))
    (h : key ∈ used) : (validateLicenseKey key t used).1 = false := by
  simp only [validateLicenseKey]
  split_ifs <;> simp_all

/-- C4: a credential that validates successfully is appended to the
persisted replay set, and activating it a second time fails with no
state change; the key is appended only when every other check has
already passed (any change of the replay set means overall success),
and no validation failure mutates the replay set or the license
state. -/
theorem license_replay_protection (key : List Char) (now now₂ : Int) (st : SecurityState)
    (h : (validateLicenseKey key (Int.fdiv now 60000) st.usedKeys).1 = true) :
    (activateLicense key now st).1 = true
    ∧ (activateLicense key now st).2.usedKeys = st.usedKeys ++ [key]
    ∧ activateLicense key now₂ (activateLicense key now st).2
        = (false, (activateLicense key now st).2)
    ∧ (∀ (k : List Char) (u : List (List Char)) (t : Int),
        (validateLicenseKey k t u).2 ≠ u → validateLicenseKey k t u = (true, u ++ [k]))
    ∧ (∀ (k : List Char) (u : List (List Char)) (t : Int),
        (validateLicenseKey k t u).1 = false → (validateLicenseKey k t u).2 = u)
    ∧ (∀ (k : List Char) (n : Int) (s : SecurityState),
        (activateLicense k n s).1 = false → (activateLicense k n s).2 = s) := by
  obtain ⟨hres, hnotin⟩ := validate_success_result key (Int.fdiv now 60000) st.usedKeys h
  refine ⟨?_, ?_, ?_, ?_, ?_, ?_⟩
  · simp [activateLicense, hres]
  · simp [activateLicense, hres]
  · have h2mem : key ∈ st.usedKeys ++ [key] := by simp
    have hv2fst := validate_replayed key (Int.fdiv now₂ 60000) (st.usedKeys ++ [key]) h2mem
    have hv2snd := validate_fail_keeps_used key (Int.fdiv now₂ 60000)
      (st.usedKeys ++ [key]) hv2fst
    simp [activateLicense, hres, hv2fst, hv2snd]
  · exact fun k u t hne => validate_append_only_on_success k t u hne
  · exact fun k u t hf => validate_fail_keeps_used k t u hf
  · intro k n s hf
    by_cases hv : (validateLicenseKey k (Int.fdiv n 60000) s.usedKeys).1 = true
    · simp [activateLicense, hv] at hf
    · have hv' : (validateLicenseKey k (Int.fdiv n 60000) s.usedKeys).1 = false :=
        Bool.not_eq_true _ ▸ Bool.of_not_eq_true hv
      have hkeep := validate_fail_keeps_used k (Int.fdiv n 60000) s.usedKeys hv'
      simp [activateLicense, hv', hkeep]

set_option maxRecDepth 100000 in
/-- Witness for C4 at the concrete credential `ABCD-0000-1234-7ABC`
against a fresh `SecurityManager` at time 0: the first activation
succeeds and records the key; the second activation fails and leaves
the state unchanged. -/
theorem license_replay_protection_witness :
    (activateLicense goodKey 0 initialSecurityState).1 = true
    ∧ (activateLicense goodKey 0 initialSecurityState).2.usedKeys
        = initialSecurityState.usedKeys ++ [goodKey]
    ∧ activateLicense goodKey 0 (activateLicense goodKey 0 initialSecurityState).2
        = (false, (activateLicense goodKey 0 initialSecurityState).2) := by
  obtain ⟨a, b, c, -, -, -⟩ :=
    license_replay_protection goodKey 0 0 initialSecurityState (by decide)
  exact ⟨a, b, c⟩

/-! ## Detector statefulness — claim C10 -/

theorem execLoop_resets (re : GRegex) (text : List Char) (hWF : WFRegex re text) :
    ∀ fuel lastIndex, text.length < fuel + lastIndex → 0 < fuel →
      (execLoop re text fuel lastIndex).2 = 0 := by
  intro fuel
  induction fuel with
  | zero => intro ℓ _ h0; exact absurd h0 (lt_irrefl 0)
  | succ fuel ih =>
    intro ℓ hlen _
    cases hfind : re.find text ℓ with
    | none => simp [execLoop, hfind]
    | some p =>
      obtain ⟨i, len⟩ := p
      obtain ⟨hle, hpos, hbound⟩ := hWF ℓ i len hfind
      have hrec : (execLoop re text fuel (i + len)).2 = 0 := by
        cases fuel with
        | zero => exfalso; omega
        | succ f => exact ih _ (by omega) (by omega)
      simp [execLoop, hfind, hrec]

/-- C10: the sensitive-value scan is deterministic across repeated
calls on the same `NLPProcessor` instance. Starting from the fresh
instance state (every pattern's `lastIndex` at 0), a call leaves every
pattern's `lastIndex` at 0 again — each exec loop runs until `null`,
which resets the position — so a second call on the same instance
returns exactly the same spans and state. Holds for every matcher
satisfying the regex-exec well-formedness conditions. -/
theorem detect_deterministic (patterns : List GRegex) (text : List Char)
    (hWF : ∀ re ∈ patterns, WFRegex re text) :
    (detectRun patterns text (List.replicate patterns.length 0)).2
        = List.replicate patterns.length 0
    ∧ detectRun patterns text
        (detectRun patterns text (List.replicate patterns.length 0)).2
      = detectRun patterns text (List.replicate patterns.length 0) := by
  have hstate : (detectRun patterns text (List.replicate patterns.length 0)).2
      = List.replicate patterns.length 0 := by
    unfold detectRun
    simp only [List.map_map]
    refine List.eq_replicate_iff.mpr ⟨?_, ?_⟩
    · simp
    · intro b hb
      simp only [List.mem_map, Function.comp] at hb
      obtain ⟨pr, hpr, rfl⟩ := hb
      have hmem := List.of_mem_zip hpr
      have hwf := hWF pr.1 hmem.1
      have hzero : pr.2 = 0 := List.eq_of_mem_replicate hmem.2
      rw [hzero]
      exact execLoop_resets pr.1 text hwf (text.length + 1) 0 (by omega) (by omega)
  exact ⟨hstate, by rw [hstate]⟩

theorem firstAIdx_lt (l : List Char) (j : Nat) (h : firstAIdx l = some j) : j < l.length := by
  induction l generalizing j with
  | nil => simp [firstAIdx] at h
  | cons c cs ih =>
    simp only [firstAIdx] at h
    by_cases hc : c = 'a'
    · rw [if_pos hc] at h
      cases h
      simp
    · rw [if_neg hc] at h
      cases hfi : firstAIdx cs with
      | none => rw [hfi] at h; simp at h
      | some j' =>
        rw [hfi] at h
        simp at h
        have := ih j' hfi
        simp only [List.length_cons]
        omega

theorem demoRe_wf (text : List Char) : WFRegex demoRe text := by
  intro pos i len hfind
  simp only [demoRe] at hfind
  cases hfi : firstAIdx (text.drop pos) with
  | none => rw [hfi] at hfind; simp at hfind
  | some j =>
    rw [hfi] at hfind
    simp at hfind
    obtain ⟨hi, hlen⟩ := hfind
    have hj := firstAIdx_lt _ _ hfi
    rw [List.length_drop] at hj
    refine ⟨by omega, by omega, by omega⟩

/-- Witness for C10: the concrete `'a'`-matcher over the text
`"banana mania"` — the post-call state is the reset state and the
second call reproduces the first. -/
theorem detect_deterministic_witness :
    (detectRun [demoRe] demoText (List.replicate [demoRe].length 0)).2
        = List.replicate [demoRe].length 0
    ∧ detectRun [demoRe] demoText
        (detectRun [demoRe] demoText (List.replicate [demoRe].length 0)).2
      = detectRun [demoRe] demoText (List.replicate [demoRe].length 0) :=
  detect_deterministic [demoRe] demoText (by
    intro re hre
    rw [List.mem_singleton.mp hre]
    exact demoRe_wf demoText)

/-! ## Progress events — claims C7 and C8 -/

theorem chain'_le_append_mid (hi : ℚ) (mid rest : List ℚ)
    (hmid : List.Chain' (· ≤ ·) mid) (hle : ∀ x ∈ mid, x ≤ hi)
    (hrest : List.Chain' (· ≤ ·) (hi :: rest)) :
    List.Chain' (· ≤ ·) (mid ++ hi :: rest) := by
  induction mid with
  | nil => simpa using hrest
  | cons m ms ih =>
    have hmss : List.Chain' (· ≤ ·) ms := hmid.tail
    have hles : ∀ x ∈ ms, x ≤ hi := fun x hx => hle x (List.mem_cons_of_mem m hx)
    have hms := ih hmss hles
    rw [List.cons_append]
    refine List.chain'_cons'.mpr ⟨?_, hms⟩
    intro y hy
    cases ms with
    | nil =>
      simp only [List.nil_append, List.head?_cons, Option.mem_def, Option.some.injEq] at hy
      subst hy
      exact hle m (List.mem_cons_self m [])
    | cons m' ms' =>
      simp only [List.cons_append, List.head?_cons, Option.mem_def, Option.some.injEq] at hy
      subst hy
      exact (List.chain'_cons.mp hmid).1

theorem chain'_ocr_band (reports : List ℚ) (rest : List ℚ)
    (hmono : List.Chain' (· ≤ ·) reports)
    (hrange : ∀ q ∈ reports, 0 ≤ q ∧ q ≤ 1)
    (hrest : List.Chain' (· ≤ ·) (6/10 :: rest)) :
    List.Chain' (· ≤ ·)
      (2/10 :: (reports.map (fun q => 2/10 + q * (4/10)) ++ 6/10 :: rest)) := by
  have hmap : List.Chain' (· ≤ ·) (reports.map (fun q => 2/10 + q * (4/10))) := by
    rw [List.chain'_map]
    exact hmono.imp (fun a b hab => by nlinarith)
  have hbound : ∀ x ∈ reports.map (fun q => 2/10 + q * (4/10)), x ≤ 6/10 := by
    intro x hx
    obtain ⟨q, hq, rfl⟩ := List.mem_map.mp hx
    have h2 := (hrange q hq).2
    nlinarith
  have hmid := chain'_le_append_mid (6/10) _ rest hmap hbound hrest
  refine List.chain'_cons'.mpr ⟨?_, hmid⟩
  intro y hy
  cases reports with
  | nil =>
    simp only [List.map_nil, List.nil_append, List.head?_cons, Option.mem_def,
      Option.some.injEq] at hy
    subst hy
    norm_num
  | cons q qs =>
    simp only [List.map_cons, List.cons_append, List.head?_cons, Option.mem_def,
      Option.some.injEq] at hy
    subst hy
    have h1 := (hrange q (List.mem_cons_self q qs)).1
    nlinarith

theorem getLast?_cons_append_cons {α : Type} (x a : α) (M L : List α) :
    (x :: (M ++ a :: L)).getLast? = (a :: L).getLast? := by
  rw [← List.cons_append, List.getLast?_append_cons]

/-- C7 (counterexample): the claim fails as stated — in a full run with
`anonymize = true`, an entity found and every collaborator call
succeeding, the emitted progress values need not be non-decreasing,
because the engine rescales whatever fractions the OCR collaborator
reports; with reports `[1, 0]` (each a valid fraction in `[0, 1]`) the
event sequence contains `0.6` followed by `0.2`. -/
theorem progress_monotonicity_counterexample :
    ¬ List.Chain' (· ≤ ·) ((processFileEvents true false true [1, 0] 1).map Prod.snd)
    ∧ (∀ q ∈ [(1 : ℚ), 0], 0 ≤ q ∧ q ≤ 1) := by
  constructor
  · norm_num [processFileEvents, List.chain'_cons, List.chain'_singleton]
  · intro q hq
    simp only [List.mem_cons, List.not_mem_nil, or_false] at hq
    rcases hq with rfl | rfl <;> norm_num

/-- C7 (amended): in a full run with `anonymize = true`, entities
found, every collaborator call succeeding, and the OCR collaborator's
sub-progress reports non-decreasing and within `[0, 1]`, the emitted
progress values are non-decreasing and the final event is
`("complete", 1.0)`. -/
theorem progress_monotone (requiresWatermark : Bool) (ocrReports : List ℚ) (nlpTotal : Nat)
    (hmono : List.Chain' (· ≤ ·) ocrReports)
    (hrange : ∀ q ∈ ocrReports, 0 ≤ q ∧ q ≤ 1)
    (htotal : 0 < nlpTotal) :
    List.Chain' (· ≤ ·)
      ((processFileEvents true false requiresWatermark ocrReports nlpTotal).map Prod.snd)
    ∧ (processFileEvents true false requiresWatermark ocrReports nlpTotal).getLast?
        = some ("complete", 1) := by
  constructor
  · cases requiresWatermark <;>
    · simp only [processFileEvents, if_pos htotal, Bool.false_eq_true, if_false, if_true,
        List.map_append, List.map_cons, List.map_nil, List.map_map, List.cons_append,
        List.nil_append, List.append_assoc, List.singleton_append]
      refine List.chain'_cons.mpr ⟨by norm_num, ?_⟩
      refine List.chain'_cons.mpr ⟨by norm_num, ?_⟩
      exact chain'_ocr_band ocrReports _ hmono hrange
        (by norm_num [List.chain'_cons, List.chain'_singleton])
  · cases requiresWatermark <;>
    · simp only [processFileEvents, if_pos htotal, Bool.false_eq_true, if_false, if_true,
        List.cons_append, List.nil_append, List.append_assoc, List.singleton_append]
      simp only [List.getLast?_cons_cons]
      rw [getLast?_cons_append_cons]
      rfl

/-- Witness for the amended C7 at reports `[1/2, 1]` with one entity
found and a watermark required. -/
theorem progress_monotone_witness :
    List.Chain' (· ≤ ·)
      ((processFileEvents true false true [1/2, 1] 1).map Prod.snd)
    ∧ (processFileEvents true false true [1/2, 1] 1).getLast? = some ("complete", 1) :=
  progress_monotone true [1/2, 1] 1
    (by norm_num [List.chain'_cons, List.chain'_singleton])
    (by
      intro q hq
      simp only [List.mem_cons, List.not_mem_nil, or_false] at hq
      rcases hq with rfl | rfl <;> norm_num)
    (by norm_num)

/-- C8: a run with `anonymize = false` emits no `nlp_analysis` event
and no `blur_*` event; a full run with `anonymize = true` and zero
detected entities emits exactly one `blur_skip` event, and its
redaction stage never invokes the region redactor — the canvas passes
through unchanged (`Except.ok c` for every canvas, box list and block
size). -/
theorem skip_path_correctness (extractTextOnly requiresWatermark : Bool)
    (ocrReports : List ℚ) (nlpTotal : Nat) :
    (∀ e ∈ processFileEvents false extractTextOnly requiresWatermark ocrReports nlpTotal,
        e.1 ≠ "nlp_analysis" ∧ stepStartsWith "blur_" e.1 = false)
    ∧ (processFileEvents true false requiresWatermark ocrReports 0).countP
        (fun e => e.1 == "blur_skip") = 1
    ∧ (∀ (boxes : List RedactionBox) (ps : Nat) (c : CanvasImage),
        redactionStage true 0 boxes ps c = Except.ok c) := by
  refine ⟨?_, ?_, ?_⟩
  · cases extractTextOnly <;> cases requiresWatermark <;>
    · simp only [processFileEvents, Bool.false_eq_true, if_false, if_true, List.nil_append,
        List.cons_append, List.append_assoc, List.singleton_append, List.append_nil,
        List.forall_mem_append, List.forall_mem_cons, List.forall_mem_map,
        List.forall_mem_nil]
      repeat' apply And.intro
      all_goals first
        | trivial
        | exact ⟨by decide, by decide⟩
        | exact fun q _ => ⟨by decide, by decide⟩
  · cases requiresWatermark <;>
    · simp only [processFileEvents, gt_iff_lt, lt_self_iff_false, if_false, Bool.false_eq_true,
        if_true, List.nil_append, List.cons_append, List.append_assoc, List.singleton_append,
        List.countP_append, List.countP_cons, List.countP_map, List.countP_nil,
        Function.comp_def]
      simp
  · intro boxes ps c
    simp [redactionStage]

/-- Witness for C8: with one OCR report and zero entities, the event
list carries exactly one `blur_skip`; the watermark event of an
`anonymize = false` run is neither `nlp_analysis` nor `blur_*`; and the
redaction stage passes the white canvas through untouched. -/
theorem skip_path_correctness_witness :
    ((("watermark", (9 : ℚ)/10) : String × ℚ).1 ≠ "nlp_analysis"
      ∧ stepStartsWith "blur_" (("watermark", (9 : ℚ)/10) : String × ℚ).1 = false)
    ∧ (processFileEvents true false true [1/2] 0).countP
        (fun e => e.1 == "blur_skip") = 1
    ∧ redactionStage true 0 [oobRedaction] 20 whiteCanvas = Except.ok whiteCanvas := by
  obtain ⟨h1, h2, h3⟩ := skip_path_correctness false true [1/2] 0
  exact ⟨h1 ("watermark", (9 : ℚ)/10) (by norm_num [processFileEvents]), h2,
    h3 [oobRedaction] 20 whiteCanvas⟩

/-! ## Region redactor bounds behaviour — claim C5 -/

theorem blurRegion_ok (c : CanvasImage) (bbox : BBox) (ps : Nat) (hps : 0 < ps)
    (h1 : bbox.x0 < bbox.x1) (h2 : bbox.y0 < bbox.y1) :
    blurRegion c bbox ps
      = Except.ok (putImageData c
          (pixelateImage
            (getImageData c bbox.x0 bbox.y0 (bbox.x1 - bbox.x0).toNat (bbox.y1 - bbox.y0).toNat)
            ps)
          bbox.x0 bbox.y0) := by
  unfold blurRegion
  rw [if_neg (by omega), if_neg (by omega)]
  have hx : min bbox.x0 bbox.x1 = bbox.x0 := by omega
  have hy : min bbox.y0 bbox.y1 = bbox.y0 := by omega
  have hw : (bbox.x1 - bbox.x0).natAbs = (bbox.x1 - bbox.x0).toNat := by omega
  have hh : (bbox.y1 - bbox.y0).natAbs = (bbox.y1 - bbox.y0).toNat := by omega
  rw [hx, hy, hw, hh]

/-- C5 (counterexample): the claim fails as stated — a region whose
bounding box `(0,0)-(5,5)` lies outside the 2×2 canvas does not cause
an error: `blurRegions` performs no bounds check and returns
successfully, the canvas primitives silently padding out-of-bounds
reads and clipping out-of-bounds writes. -/
theorem blur_bounds_counterexample :
    (blurRegions whiteCanvas [oobRedaction] 20).isOk = true
    ∧ (whiteCanvas.width : Int) < oobRedaction.bbox.x1
    ∧ (whiteCanvas.height : Int) < oobRedaction.bbox.y1 := by
  refine ⟨rfl, by decide, by decide⟩

/-- C5 (amended): the region redactor performs no bounds checking — with
a positive block size, a request whose boxes all have non-zero width
and height completes without error even when their bounding boxes lie
outside the image bounds (out-of-bounds reads are padded with
transparent black, out-of-bounds writes are clipped, and a negative
size is normalized by `getImageData` to the rectangle spanned by the
box's corners rather than rejected); an `IndexSizeError` is raised
exactly for a region of zero width or height; and with block size 0
(`blurIntensity = 0`) the pixelation loops never terminate on any
region that passes the zero-size check. -/
theorem blur_no_bounds_check (c : CanvasImage) (boxes : List RedactionBox) (ps : Nat)
    (hps : 0 < ps)
    (hnz : ∀ b ∈ boxes, b.bbox.x1 ≠ b.bbox.x0 ∧ b.bbox.y1 ≠ b.bbox.y0) :
    (blurRegions c boxes ps).isOk = true
    ∧ (∀ (c' : CanvasImage) (bbox : BBox), bbox.x1 = bbox.x0 ∨ bbox.y1 = bbox.y0 →
        blurRegion c' bbox ps = Except.error (BlurFailure.thrown "IndexSizeError"))
    ∧ (∀ (c' : CanvasImage) (bbox : BBox), bbox.x1 ≠ bbox.x0 → bbox.y1 ≠ bbox.y0 →
        blurRegion c' bbox 0 = Except.error BlurFailure.diverge) := by
  refine ⟨?_, ?_, ?_⟩
  · induction boxes generalizing c with
    | nil => rfl
    | cons b bs ih =>
      have hb := hnz b (List.mem_cons_self b bs)
      have hok : blurRegion c b.bbox ps
          = Except.ok (putImageData c
              (pixelateImage
                (getImageData c (min b.bbox.x0 b.bbox.x1) (min b.bbox.y0 b.bbox.y1)
                  (b.bbox.x1 - b.bbox.x0).natAbs (b.bbox.y1 - b.bbox.y0).natAbs) ps)
              b.bbox.x0 b.bbox.y0) := by
        unfold blurRegion
        rw [if_neg (by omega), if_neg (by omega)]
      have hstep : blurRegions c (b :: bs) ps
          = blurRegions (putImageData c
              (pixelateImage
                (getImageData c (min b.bbox.x0 b.bbox.x1) (min b.bbox.y0 b.bbox.y1)
                  (b.bbox.x1 - b.bbox.x0).natAbs (b.bbox.y1 - b.bbox.y0).natAbs) ps)
              b.bbox.x0 b.bbox.y0) bs ps := by
        simp only [blurRegions, List.foldlM_cons, hok]
        rfl
      rw [hstep]
      exact ih _ (fun b' hb' => hnz b' (List.mem_cons_of_mem b hb'))
  · intro c' bbox h
    unfold blurRegion
    rw [if_pos (by omega)]
  · intro c' bbox hx hy
    unfold blurRegion
    rw [if_neg (by omega), if_pos rfl]

/-- Witness for the amended C5: the out-of-bounds box over the white
2×2 canvas is processed without error; a degenerate box of zero width
raises `IndexSizeError`; and an in-bounds box of positive size diverges
at block size 0. -/
theorem blur_no_bounds_check_witness :
    (blurRegions whiteCanvas [oobRedaction] 20).isOk = true
    ∧ blurRegion whiteCanvas ⟨3, 3, 3, 9⟩ 20 = Except.error (BlurFailure.thrown "IndexSizeError")
    ∧ blurRegion whiteCanvas ⟨0, 0, 2, 2⟩ 0 = Except.error BlurFailure.diverge := by
  obtain ⟨h1, h2, h3⟩ :=
    blur_no_bounds_check whiteCanvas [oobRedaction] 20 (by decide) (by decide)
  exact ⟨h1, h2 whiteCanvas ⟨3, 3, 3, 9⟩ (by decide),
    h3 whiteCanvas ⟨0, 0, 2, 2⟩ (by decide) (by decide)⟩

/-! ## Block pixelation — claim C6

The characterization below shows that `_pixelate` replaces, in every
RGB channel of every pixel of the buffer, the byte by the byte of the
containing block's top-left pixel, leaving alpha untouched; idempotence
follows because a block origin is its own block's top-left pixel. -/

theorem chOf_lt_four (j : Nat) : chOf j < 4 := by
  unfold chOf
  omega

theorem encode_decode (w X Y c : Nat) (hX : X < w) (hc : c < 4) :
    chOf ((Y * w + X) * 4 + c) = c ∧ pxOf ((Y * w + X) * 4 + c) = Y * w + X
    ∧ xOf w ((Y * w + X) * 4 + c) = X ∧ yOf w ((Y * w + X) * 4 + c) = Y := by
  have hw : 0 < w := Nat.lt_of_le_of_lt (Nat.zero_le X) hX
  have hch : chOf ((Y * w + X) * 4 + c) = c := by
    unfold chOf
    omega
  have hpx : pxOf ((Y * w + X) * 4 + c) = Y * w + X := by
    unfold pxOf
    omega
  refine ⟨hch, hpx, ?_, ?_⟩
  · unfold xOf
    rw [hpx, Nat.mul_comm Y w, Nat.mul_add_mod, Nat.mod_eq_of_lt hX]
  · unfold yOf
    rw [hpx, Nat.mul_comm Y w, Nat.mul_add_div hw, Nat.div_eq_of_lt hX, Nat.add_zero]

theorem pxOf_decomp (w j : Nat) (hw : 0 < w) :
    pxOf j = yOf w j * w + xOf w j ∧ xOf w j < w := by
  unfold yOf xOf
  constructor
  · rw [Nat.mul_comm]
    exact (Nat.div_add_mod (pxOf j) w).symm
  · exact Nat.mod_lt _ hw

theorem idx_decomp (j : Nat) : (pxOf j) * 4 + chOf j = j := by
  unfold pxOf chOf
  omega

theorem writeRGB_eval (d : Nat → Nat) (i r g b j : Nat) :
    writeRGB d i r g b j =
      if j = i + 2 then b else if j = i + 1 then g else if j = i then r else d j := rfl

theorem rowFoldAux (d : Nat → Nat) (w x yy r g b : Nat) (m : Nat) (j : Nat) :
    (List.range m).foldl (fun acc dx => writeRGB acc ((yy * w + (x + dx)) * 4) r g b) d j =
      if chOf j < 3 ∧ yy * w + x ≤ pxOf j ∧ pxOf j < yy * w + x + m
      then [r, g, b].getD (chOf j) 0 else d j := by
  induction m with
  | zero =>
    rw [List.range_zero, List.foldl_nil, if_neg]
    intro hcontra
    omega
  | succ m ih =>
    rw [List.range_succ, List.foldl_append, List.foldl_cons, List.foldl_nil, writeRGB_eval, ih]
    have hassoc : yy * w + (x + m) = yy * w + x + m := by rw [Nat.add_assoc]
    rw [hassoc]
    unfold chOf pxOf
    generalize yy * w + x = B
    have hj4 : j % 4 = 0 ∨ j % 4 = 1 ∨ j % 4 = 2 ∨ j % 4 = 3 := by omega
    by_cases hp : j / 4 = B + m
    · rcases hj4 with hc | hc | hc | hc
      · rw [if_neg (by omega), if_neg (by omega), if_pos (by omega),
          if_pos (by refine ⟨by omega, by omega, by omega⟩), hc]
        rfl
      · rw [if_neg (by omega), if_pos (by omega),
          if_pos (by refine ⟨by omega, by omega, by omega⟩), hc]
        rfl
      · rw [if_pos (by omega), if_pos (by refine ⟨by omega, by omega, by omega⟩), hc]
        rfl
      · rw [if_neg (by omega), if_neg (by omega), if_neg (by omega),
          if_neg (by omega), if_neg (by omega)]
    · rw [if_neg (by omega), if_neg (by omega), if_neg (by omega)]
      by_cases hcnd : j % 4 < 3 ∧ B ≤ j / 4 ∧ j / 4 < B + m
      · rw [if_pos hcnd, if_pos (by omega)]
      · rw [if_neg hcnd, if_neg (by omega)]

theorem blockRowWrite_eval (d : Nat → Nat) (w x yy ps r g b : Nat) (j : Nat) :
    blockRowWrite d w x yy ps r g b j =
      if chOf j < 3 ∧ yy * w + x ≤ pxOf j ∧ pxOf j < yy * w + x + min ps (w - x)
      then [r, g, b].getD (chOf j) 0 else d j := by
  unfold blockRowWrite
  exact rowFoldAux d w x yy r g b (min ps (w - x)) j

theorem px_band_iff (w X Y yy x m : Nat) (hX : X < w) (hxm : x + m ≤ w) :
    (yy * w + x ≤ Y * w + X ∧ Y * w + X < yy * w + x + m) ↔ (Y = yy ∧ x ≤ X ∧ X < x + m) := by
  have hw : 0 < w := Nat.lt_of_le_of_lt (Nat.zero_le X) hX
  constructor
  · rintro ⟨h1, h2⟩
    have hdiv : (Y * w + X) / w = Y := by
      rw [Nat.mul_comm Y w, Nat.mul_add_div hw, Nat.div_eq_of_lt hX, Nat.add_zero]
    have hdiv2 : (Y * w + X) / w = yy := by
      apply Nat.div_eq_of_lt_le
      · calc yy * w ≤ yy * w + x := Nat.le_add_right _ _
          _ ≤ Y * w + X := h1
      · rw [Nat.succ_mul]
        calc Y * w + X < yy * w + x + m := h2
          _ ≤ yy * w + w := by omega
    have hY : Y = yy := by rw [← hdiv, hdiv2]
    subst hY
    refine ⟨rfl, by omega, by omega⟩
  · rintro ⟨rfl, h1, h2⟩
    constructor <;> omega

theorem colFoldAux (d : Nat → Nat) (w x y ps r g b : Nat) (hx : x < w) (m : Nat) (j : Nat) :
    (List.range m).foldl (fun acc dy => blockRowWrite acc w x (y + dy) ps r g b) d j =
      if chOf j < 3 ∧ x ≤ xOf w j ∧ xOf w j < x + min ps (w - x)
        ∧ y ≤ yOf w j ∧ yOf w j < y + m
      then [r, g, b].getD (chOf j) 0 else d j := by
  have hw : 0 < w := Nat.lt_of_le_of_lt (Nat.zero_le x) hx
  have hxm : x + min ps (w - x) ≤ w := by omega
  obtain ⟨hpx, hXw⟩ := pxOf_decomp w j hw
  induction m with
  | zero =>
    rw [List.range_zero, List.foldl_nil, if_neg]
    intro hcontra
    omega
  | succ m ih =>
    rw [List.range_succ, List.foldl_append, List.foldl_cons, List.foldl_nil,
      blockRowWrite_eval, ih]
    have hband := px_band_iff w (xOf w j) (yOf w j) (y + m) x (min ps (w - x)) hXw hxm
    rw [← hpx] at hband
    by_cases hrow : (y + m) * w + x ≤ pxOf j ∧ pxOf j < (y + m) * w + x + min ps (w - x)
    · obtain ⟨hYr, hXr1, hXr2⟩ := hband.mp hrow
      by_cases hch : chOf j < 3
      · rw [if_pos ⟨hch, hrow.1, hrow.2⟩, if_pos ⟨hch, hXr1, hXr2, by omega, by omega⟩]
      · rw [if_neg (fun hc => hch hc.1), if_neg (fun hc => hch hc.1),
          if_neg (fun hc => hch hc.1)]
    · rw [if_neg (fun hc => hrow ⟨hc.2.1, hc.2.2⟩)]
      by_cases hc2 : chOf j < 3 ∧ x ≤ xOf w j ∧ xOf w j < x + min ps (w - x)
          ∧ y ≤ yOf w j ∧ yOf w j < y + m
      · rw [if_pos hc2, if_pos ⟨hc2.1, hc2.2.1, hc2.2.2.1, hc2.2.2.2.1, by omega⟩]
      · rw [if_neg hc2, if_neg]
        intro hc3
        have hYne : yOf w j ≠ y + m := by
          intro hYeq
          exact hrow (hband.mpr ⟨hYeq, hc3.2.1, hc3.2.2.1⟩)
        exact hc2 ⟨hc3.1, hc3.2.1, hc3.2.2.1, hc3.2.2.2.1, by omega⟩

theorem blockWrite_eval (d : Nat → Nat) (w h x y ps r g b : Nat) (hx : x < w) (j : Nat) :
    blockWrite d w h x y ps r g b j =
      if chOf j < 3 ∧ x ≤ xOf w j ∧ xOf w j < x + min ps (w - x)
        ∧ y ≤ yOf w j ∧ yOf w j < y + min ps (h - y)
      then [r, g, b].getD (chOf j) 0 else d j := by
  unfold blockWrite
  exact colFoldAux d w x y ps r g b hx (min ps (h - y)) j

theorem pixelateBlock_eval (d : Nat → Nat) (w h ps x y : Nat) (hx : x < w) (j : Nat) :
    pixelateBlock d w h ps x y j =
      if chOf j < 3 ∧ x ≤ xOf w j ∧ xOf w j < x + min ps (w - x)
        ∧ y ≤ yOf w j ∧ yOf w j < y + min ps (h - y)
      then d ((y * w + x) * 4 + chOf j) else d j := by
  unfold pixelateBlock
  rw [blockWrite_eval d w h x y ps _ _ _ hx j]
  by_cases hc : chOf j < 3 ∧ x ≤ xOf w j ∧ xOf w j < x + min ps (w - x)
      ∧ y ≤ yOf w j ∧ yOf w j < y + min ps (h - y)
  · rw [if_pos hc, if_pos hc]
    have h3 : chOf j = 0 ∨ chOf j = 1 ∨ chOf j = 2 := by
      have := hc.1
      omega
    rcases h3 with h0 | h1 | h2
    · rw [h0]
      rfl
    · rw [h1]
      rfl
    · rw [h2]
      rfl
  · rw [if_neg hc, if_neg hc]

theorem aligned_window (ps v b : Nat) (hps : 0 < ps) (hd : ps ∣ b) :
    (b ≤ v ∧ v < b + ps) ↔ blockBase ps v = b := by
  obtain ⟨k, rfl⟩ := hd
  unfold blockBase
  constructor
  · rintro ⟨h1, h2⟩
    have hdiv : v / ps = k := by
      apply Nat.div_eq_of_lt_le
      · rw [Nat.mul_comm]
        exact h1
      · rw [Nat.succ_mul, Nat.mul_comm k ps]
        exact h2
    rw [hdiv, Nat.mul_comm]
  · intro hbb
    have hle : v / ps * ps ≤ v := Nat.div_mul_le_self v ps
    have hdm := Nat.div_add_mod v ps
    have hlt := Nat.mod_lt v hps
    have hcomm : ps * (v / ps) = v / ps * ps := Nat.mul_comm _ _
    omega

theorem covers_iff (w h ps X Y bx yb : Nat) (hps : 0 < ps)
    (hdx : ps ∣ bx) (hbxw : bx < w) (hdy : ps ∣ yb) (hbyh : yb < h) (hXw : X < w) :
    (bx ≤ X ∧ X < bx + min ps (w - bx) ∧ yb ≤ Y ∧ Y < yb + min ps (h - yb))
      ↔ (blockBase ps X = bx ∧ blockBase ps Y = yb ∧ Y < h) := by
  have hX' : (bx ≤ X ∧ X < bx + min ps (w - bx)) ↔ (bx ≤ X ∧ X < bx + ps) := by
    rcases Nat.le_total ps (w - bx) with hm | hm
    · rw [Nat.min_eq_left hm]
    · rw [Nat.min_eq_right hm]
      constructor
      · rintro ⟨h1, _⟩
        exact ⟨h1, by omega⟩
      · rintro ⟨h1, _⟩
        exact ⟨h1, by omega⟩
  have hY' : (yb ≤ Y ∧ Y < yb + min ps (h - yb)) ↔ (yb ≤ Y ∧ Y < yb + ps ∧ Y < h) := by
    rcases Nat.le_total ps (h - yb) with hm | hm
    · rw [Nat.min_eq_left hm]
      constructor
      · rintro ⟨h1, h2⟩
        exact ⟨h1, h2, by omega⟩
      · rintro ⟨h1, h2, _⟩
        exact ⟨h1, h2⟩
    · rw [Nat.min_eq_right hm]
      constructor
      · rintro ⟨h1, h2⟩
        exact ⟨h1, by omega, by omega⟩
      · rintro ⟨h1, _, h3⟩
        exact ⟨h1, by omega⟩
  constructor
  · rintro ⟨h1, h2, h3, h4⟩
    have hxw := (aligned_window ps X bx hps hdx).mp ⟨h1, (hX'.mp ⟨h1, h2⟩).2⟩
    have hyw := (aligned_window ps Y yb hps hdy).mp ⟨h3, (hY'.mp ⟨h3, h4⟩).2.1⟩
    exact ⟨hxw, hyw, (hY'.mp ⟨h3, h4⟩).2.2⟩
  · rintro ⟨hbx, hby, hYh⟩
    have hxw := (aligned_window ps X bx hps hdx).mpr hbx
    have hyw := (aligned_window ps Y yb hps hdy).mpr hby
    exact ⟨hxw.1, (hX'.mpr hxw).2, hyw.1, (hY'.mpr ⟨hyw.1, hyw.2, hYh⟩).2⟩

theorem processBlocks_eval (d : Nat → Nat) (w h ps : Nat) (hps : 0 < ps) (hw : 0 < w)
    (L : List (Nat × Nat))
    (hL : ∀ b ∈ L, ps ∣ b.1 ∧ b.1 < w ∧ ps ∣ b.2 ∧ b.2 < h) (hnd : L.Nodup) :
    ∀ j, processBlocks d w h ps L j =
      if chOf j < 3 ∧ yOf w j < h
        ∧ (blockBase ps (xOf w j), blockBase ps (yOf w j)) ∈ L
      then d ((blockBase ps (yOf w j) * w + blockBase ps (xOf w j)) * 4 + chOf j) else d j := by
  revert hL hnd
  induction L using List.reverseRecOn with
  | nil =>
    intro hL hnd j
    simp [processBlocks]
  | append_singleton L b ih =>
    intro hL hnd j
    obtain ⟨bx, yb⟩ := b
    obtain ⟨hdx, hbxw, hdy, hbyh⟩ := hL (bx, yb) (List.mem_append_right _ (by simp))
    have hLsub : ∀ p ∈ L, ps ∣ p.1 ∧ p.1 < w ∧ ps ∣ p.2 ∧ p.2 < h :=
      fun p hp => hL p (List.mem_append_left _ hp)
    have hnotin : (bx, yb) ∉ L := by
      intro hmem
      exact (List.nodup_append.mp hnd).2.2 hmem (by simp)
    have hndL : L.Nodup := (List.nodup_append.mp hnd).1
    have hstep : processBlocks d w h ps (L ++ [(bx, yb)])
        = pixelateBlock (processBlocks d w h ps L) w h ps bx yb := by
      unfold processBlocks
      rw [List.foldl_append, List.foldl_cons, List.foldl_nil]
    rw [hstep, pixelateBlock_eval _ w h ps bx yb hbxw j]
    obtain ⟨hch0, hpx0, hx0, hy0⟩ := encode_decode w bx yb (chOf j) hbxw (chOf_lt_four j)
    have hbbx : blockBase ps bx = bx := by
      unfold blockBase
      exact Nat.div_mul_cancel hdx
    have hbby : blockBase ps yb = yb := by
      unfold blockBase
      exact Nat.div_mul_cancel hdy
    have horig : processBlocks d w h ps L ((yb * w + bx) * 4 + chOf j)
        = d ((yb * w + bx) * 4 + chOf j) := by
      rw [ih hLsub hndL ((yb * w + bx) * 4 + chOf j), if_neg]
      intro hc
      rw [hx0, hy0, hbbx, hbby] at hc
      exact hnotin hc.2.2
    have hXw := (pxOf_decomp w j hw).2
    have hcov := covers_iff w h ps (xOf w j) (yOf w j) bx yb hps hdx hbxw hdy hbyh hXw
    by_cases hcase : chOf j < 3 ∧ bx ≤ xOf w j ∧ xOf w j < bx + min ps (w - bx)
        ∧ yb ≤ yOf w j ∧ yOf w j < yb + min ps (h - yb)
    · rw [if_pos hcase, horig]
      obtain ⟨hbbx', hbby', hYh⟩ :=
        hcov.mp ⟨hcase.2.1, hcase.2.2.1, hcase.2.2.2.1, hcase.2.2.2.2⟩
      rw [if_pos ⟨hcase.1, hYh, by
        rw [hbbx', hbby']
        exact List.mem_append_right _ (by simp)⟩]
      rw [hbbx', hbby']
    · rw [if_neg hcase, ih hLsub hndL j]
      by_cases hcL : chOf j < 3 ∧ yOf w j < h
          ∧ (blockBase ps (xOf w j), blockBase ps (yOf w j)) ∈ L
      · rw [if_pos hcL, if_pos ⟨hcL.1, hcL.2.1, List.mem_append_left _ hcL.2.2⟩]
      · rw [if_neg hcL, if_neg]
        intro hc
        rcases List.mem_append.mp hc.2.2 with hmem | hmem
        · exact hcL ⟨hc.1, hc.2.1, hmem⟩
        · have hpair : (blockBase ps (xOf w j), blockBase ps (yOf w j)) = (bx, yb) := by
            simpa using hmem
          have hbx' : blockBase ps (xOf w j) = bx := congrArg Prod.fst hpair
          have hby' : blockBase ps (yOf w j) = yb := congrArg Prod.snd hpair
          have hcv := hcov.mpr ⟨hbx', hby', hc.2.1⟩
          exact hcase ⟨hc.1, hcv.1, hcv.2.1, hcv.2.2.1, hcv.2.2.2⟩

theorem mem_stepsBelow (ps n v : Nat) (hps : 0 < ps) :
    v ∈ stepsBelow ps n ↔ ps ∣ v ∧ v < n := by
  unfold stepsBelow
  simp only [List.mem_map, List.mem_range]
  constructor
  · rintro ⟨i, hi, rfl⟩
    refine ⟨dvd_mul_left ps i, ?_⟩
    have h2 : (i + 1) * ps ≤ n + ps - 1 :=
      calc (i + 1) * ps ≤ ((n + ps - 1) / ps) * ps := Nat.mul_le_mul_right ps hi
        _ ≤ n + ps - 1 := Nat.div_mul_le_self _ _
    have h3 : (i + 1) * ps = i * ps + ps := Nat.succ_mul i ps
    omega
  · rintro ⟨⟨k, rfl⟩, hlt⟩
    refine ⟨k, ?_, Nat.mul_comm k ps⟩
    have h3 : (k + 1) * ps = k * ps + ps := Nat.succ_mul k ps
    have h4 : k * ps = ps * k := Nat.mul_comm _ _
    have h2 : (k + 1) * ps ≤ n + ps - 1 := by omega
    have h5 := (Nat.le_div_iff_mul_le hps).mpr h2
    omega

theorem foldl_pairs (ys xs : List Nat) (f : (Nat → Nat) → Nat → Nat → (Nat → Nat))
    (d : Nat → Nat) :
    ys.foldl (fun acc y => xs.foldl (fun acc2 x => f acc2 x y) acc) d
      = (ys.flatMap (fun y => xs.map (fun x => (x, y)))).foldl
          (fun acc xy => f acc xy.1 xy.2) d := by
  induction ys generalizing d with
  | nil => rfl
  | cons y ys ih =>
    simp only [List.foldl_cons, List.flatMap_cons, List.foldl_append, List.foldl_map]
    rw [ih]

theorem pixelate_eq_processBlocks (d : Nat → Nat) (w h ps : Nat) :
    pixelate d w h ps = processBlocks d w h ps
      ((stepsBelow ps h).flatMap (fun y => (stepsBelow ps w).map (fun x => (x, y)))) := by
  unfold pixelate processBlocks
  exact foldl_pairs (stepsBelow ps h) (stepsBelow ps w)
    (fun acc x y => pixelateBlock acc w h ps x y) d

theorem nodup_stepsBelow (ps n : Nat) (hps : 0 < ps) : (stepsBelow ps n).Nodup := by
  unfold stepsBelow
  refine List.Nodup.map ?_ (List.nodup_range _)
  intro a b hab
  exact Nat.eq_of_mul_eq_mul_right hps hab

theorem nodup_allBlocks (w h ps : Nat) (hps : 0 < ps) :
    ((stepsBelow ps h).flatMap (fun y => (stepsBelow ps w).map (fun x => (x, y)))).Nodup := by
  rw [List.nodup_flatMap]
  constructor
  · intro y _
    refine List.Nodup.map ?_ (nodup_stepsBelow ps w hps)
    intro a b hab
    exact congrArg Prod.fst hab
  · refine List.Pairwise.imp ?_ (nodup_stepsBelow ps h hps)
    intro y y' hne
    intro p hp hp'
    obtain ⟨x, _, rfl⟩ := List.mem_map.mp hp
    obtain ⟨x', _, hx'⟩ := List.mem_map.mp hp'
    exact hne (congrArg Prod.snd hx').symm

theorem blockBase_le (ps v : Nat) : blockBase ps v ≤ v := Nat.div_mul_le_self v ps

theorem blockBase_dvd (ps v : Nat) : ps ∣ blockBase ps v := dvd_mul_left ps (v / ps)

theorem blockBase_idem (ps v : Nat) (hps : 0 < ps) :
    blockBase ps (blockBase ps v) = blockBase ps v := by
  unfold blockBase
  rw [Nat.mul_div_cancel _ hps]

theorem pixelate_eval (d : Nat → Nat) (w h ps : Nat) (hps : 0 < ps) (hw : 0 < w) (j : Nat) :
    pixelate d w h ps j =
      if chOf j < 3 ∧ yOf w j < h
      then d ((blockBase ps (yOf w j) * w + blockBase ps (xOf w j)) * 4 + chOf j)
      else d j := by
  rw [pixelate_eq_processBlocks]
  have hL : ∀ b ∈ (stepsBelow ps h).flatMap (fun y => (stepsBelow ps w).map (fun x => (x, y))),
      ps ∣ b.1 ∧ b.1 < w ∧ ps ∣ b.2 ∧ b.2 < h := by
    intro b hb
    obtain ⟨y, hy, hmm⟩ := List.mem_flatMap.mp hb
    obtain ⟨x, hx, rfl⟩ := List.mem_map.mp hmm
    obtain ⟨hdx, hxw⟩ := (mem_stepsBelow ps w x hps).mp hx
    obtain ⟨hdy, hyh⟩ := (mem_stepsBelow ps h y hps).mp hy
    exact ⟨hdx, hxw, hdy, hyh⟩
  rw [processBlocks_eval d w h ps hps hw _ hL (nodup_allBlocks w h ps hps) j]
  by_cases hc : chOf j < 3 ∧ yOf w j < h
  · have hmem : (blockBase ps (xOf w j), blockBase ps (yOf w j))
        ∈ (stepsBelow ps h).flatMap (fun y => (stepsBelow ps w).map (fun x => (x, y))) := by
      apply List.mem_flatMap.mpr
      refine ⟨blockBase ps (yOf w j), ?_, ?_⟩
      · exact (mem_stepsBelow ps h _ hps).mpr
          ⟨blockBase_dvd ps _, Nat.lt_of_le_of_lt (blockBase_le ps _) hc.2⟩
      · apply List.mem_map.mpr
        exact ⟨blockBase ps (xOf w j),
          (mem_stepsBelow ps w _ hps).mpr
            ⟨blockBase_dvd ps _,
              Nat.lt_of_le_of_lt (blockBase_le ps _) (pxOf_decomp w j hw).2⟩, rfl⟩
    rw [if_pos ⟨hc.1, hc.2, hmem⟩, if_pos hc]
  · rw [if_neg (fun hcc => hc ⟨hcc.1, hcc.2.1⟩), if_neg hc]

theorem pixelate_idem (d : Nat → Nat) (w h ps : Nat) (hps : 0 < ps) (hw : 0 < w) :
    pixelate (pixelate d w h ps) w h ps = pixelate d w h ps := by
  funext j
  rw [pixelate_eval (pixelate d w h ps) w h ps hps hw j]
  by_cases hc : chOf j < 3 ∧ yOf w j < h
  · rw [if_pos hc]
    have hbXlt : blockBase ps (xOf w j) < w :=
      Nat.lt_of_le_of_lt (blockBase_le ps _) (pxOf_decomp w j hw).2
    obtain ⟨hch, hpx, hx, hy⟩ := encode_decode w (blockBase ps (xOf w j))
      (blockBase ps (yOf w j)) (chOf j) hbXlt (chOf_lt_four j)
    rw [pixelate_eval d w h ps hps hw
      ((blockBase ps (yOf w j) * w + blockBase ps (xOf w j)) * 4 + chOf j)]
    rw [if_pos ⟨by rw [hch]; exact hc.1,
      by rw [hy]; exact Nat.lt_of_le_of_lt (blockBase_le ps _) hc.2⟩]
    rw [hx, hy, hch, blockBase_idem ps _ hps, blockBase_idem ps _ hps]
    rw [pixelate_eval d w h ps hps hw j, if_pos hc]
  · rw [if_neg hc, pixelate_eval d w h ps hps hw j, if_neg hc]

theorem getImageData_data_outside (c : CanvasImage) (sx sy : Int) (w h : Nat) (i : Nat)
    (hout : ¬ (yOf w i < h ∧ chOf i < 4)) :
    (getImageData c sx sy w h).data i = 0 := by
  unfold getImageData
  exact dif_neg hout

theorem getImageData_putImageData (c : CanvasImage) (img : ImageDataM) (x0 y0 : Int)
    (w h : Nat) (hiw : img.width = w) (hih : img.height = h)
    (hx0 : 0 ≤ x0) (hy0 : 0 ≤ y0)
    (hwle : x0 + w ≤ (c.width : Int)) (hhle : y0 + h ≤ (c.height : Int))
    (hwpos : 0 < w)
    (himg : ∀ i, ¬ (yOf w i < h ∧ chOf i < 4) → img.data i = 0) :
    getImageData (putImageData c img x0 y0) x0 y0 w h = img := by
  subst hiw
  subst hih
  obtain ⟨w, h, data⟩ := img
  have hwle' : x0 + (w : Int) ≤ (c.width : Int) := hwle
  have hhle' : y0 + (h : Int) ≤ (c.height : Int) := hhle
  clear hwle hhle
  unfold getImageData putImageData
  dsimp only
  congr 1
  funext i
  by_cases hin : yOf w i < h ∧ chOf i < 4
  · rw [dif_pos hin]
    have hxofw : xOf w i < w := (pxOf_decomp w i hwpos).2
    have hyofh : yOf w i < h := hin.1
    rw [if_pos (by refine ⟨by omega, by omega, by omega, by omega⟩)]
    rw [if_pos (by refine ⟨by omega, by omega, by omega, by omega⟩)]
    have hargx : (((x0 + (xOf w i : Int)).toNat : Int) - x0).toNat = xOf w i := by omega
    have hargy : (((y0 + (yOf w i : Int)).toNat : Int) - y0).toNat = yOf w i := by omega
    rw [hargx, hargy]
    have hidx : (yOf w i * w + xOf w i) * 4 + chOf i = i := by
      rw [← (pxOf_decomp w i hwpos).1]
      exact idx_decomp i
    simp only [hidx]
  · rw [dif_neg hin]
    exact (himg i hin).symm

theorem putImageData_putImageData (c : CanvasImage) (img : ImageDataM) (x0 y0 : Int) :
    putImageData (putImageData c img x0 y0) img x0 y0 = putImageData c img x0 y0 := by
  unfold putImageData
  simp only
  congr 1
  funext x y ch
  by_cases hcond : x0 ≤ (x : Int) ∧ (x : Int) < x0 + img.width
      ∧ y0 ≤ (y : Int) ∧ (y : Int) < y0 + img.height
  · rw [if_pos hcond, if_pos hcond]
  · simp only [if_neg hcond]

/-- C6: redaction is idempotent — for every canvas, every in-bounds
redaction box and every block size in `[1, 50]`, applying the block
pixelation to the same box twice yields a pixel-for-pixel identical
canvas to applying it once: each block's replacement colour is read
from the block's top-left pixel, which the first application already
set to the block colour. -/
theorem redaction_idempotent (c : CanvasImage) (box : RedactionBox) (ps : Nat)
    (hps1 : 1 ≤ ps) (hps50 : ps ≤ 50)
    (hx0 : 0 ≤ box.bbox.x0) (hy0 : 0 ≤ box.bbox.y0)
    (hx : box.bbox.x0 < box.bbox.x1) (hy : box.bbox.y0 < box.bbox.y1)
    (hxw : box.bbox.x1 ≤ (c.width : Int)) (hyh : box.bbox.y1 ≤ (c.height : Int)) :
    blurRegions c [box] ps = Except.ok (blurOnce c box.bbox ps)
    ∧ blurRegions (blurOnce c box.bbox ps) [box] ps = Except.ok (blurOnce c box.bbox ps) := by
  have hwpos : 0 < (box.bbox.x1 - box.bbox.x0).toNat := by omega
  have hhpos : 0 < (box.bbox.y1 - box.bbox.y0).toNat := by omega
  have hfold : ∀ c', blurRegions c' [box] ps = blurRegion c' box.bbox ps := by
    intro c'
    unfold blurRegions
    simp only [List.foldlM_cons, List.foldlM_nil, bind_pure]
  have hbr : ∀ c', blurRegion c' box.bbox ps = Except.ok (blurOnce c' box.bbox ps) := by
    intro c'
    rw [blurRegion_ok c' box.bbox ps (by omega) hx hy]
    rfl
  refine ⟨by rw [hfold, hbr], ?_⟩
  rw [hfold, hbr]
  suffices hkey : blurOnce (blurOnce c box.bbox ps) box.bbox ps = blurOnce c box.bbox ps by
    rw [hkey]
  have hz : ∀ i, ¬ (yOf (box.bbox.x1 - box.bbox.x0).toNat i
        < (box.bbox.y1 - box.bbox.y0).toNat ∧ chOf i < 4) →
      (pixelateImage (getImageData c box.bbox.x0 box.bbox.y0 (box.bbox.x1 - box.bbox.x0).toNat
        (box.bbox.y1 - box.bbox.y0).toNat) ps).data i = 0 := by
    intro i hi
    show pixelate (getImageData c box.bbox.x0 box.bbox.y0 _ _).data
      (box.bbox.x1 - box.bbox.x0).toNat (box.bbox.y1 - box.bbox.y0).toNat ps i = 0
    rw [pixelate_eval _ _ _ ps (by omega) hwpos i,
      if_neg (fun hcc => hi ⟨hcc.2, chOf_lt_four i⟩)]
    exact getImageData_data_outside c box.bbox.x0 box.bbox.y0 _ _ i hi
  have hget := getImageData_putImageData c
    (pixelateImage (getImageData c box.bbox.x0 box.bbox.y0 (box.bbox.x1 - box.bbox.x0).toNat
      (box.bbox.y1 - box.bbox.y0).toNat) ps)
    box.bbox.x0 box.bbox.y0
    (box.bbox.x1 - box.bbox.x0).toNat (box.bbox.y1 - box.bbox.y0).toNat
    rfl rfl hx0 hy0 (by omega) (by omega) hwpos hz
  have hpixidem : pixelateImage
      (pixelateImage (getImageData c box.bbox.x0 box.bbox.y0 (box.bbox.x1 - box.bbox.x0).toNat
        (box.bbox.y1 - box.bbox.y0).toNat) ps) ps
      = pixelateImage (getImageData c box.bbox.x0 box.bbox.y0 (box.bbox.x1 - box.bbox.x0).toNat
        (box.bbox.y1 - box.bbox.y0).toNat) ps :=
    congrArg (ImageDataM.mk (box.bbox.x1 - box.bbox.x0).toNat (box.bbox.y1 - box.bbox.y0).toNat)
      (pixelate_idem _ _ _ ps (by omega) hwpos)
  show putImageData _ (pixelateImage (getImageData _ _ _ _ _) ps) _ _ = _
  unfold blurOnce
  rw [hget, hpixidem]
  exact putImageData_putImageData c _ box.bbox.x0 box.bbox.y0

/-- Witness for C6 at the 4×4 gradient canvas, the in-bounds box
`(1,0)-(4,3)` and block size 2. -/
theorem redaction_idempotent_witness :
    blurRegions gradCanvas [inRedaction] 2 = Except.ok (blurOnce gradCanvas inRedaction.bbox 2)
    ∧ blurRegions (blurOnce gradCanvas inRedaction.bbox 2) [inRedaction] 2
        = Except.ok (blurOnce gradCanvas inRedaction.bbox 2) :=
  redaction_idempotent gradCanvas inRedaction 2 (by decide) (by decide) (by decide) (by decide)
    (by decide) (by decide) (by decide) (by decide)

end LocalSeal
